import Mathlib

/-! # Block allocator of the streaming surface reconstructor

A shallow embedding of `Reconstructor/Src/Allocator.hpp` (class `Allocator<T>` and
`AllocatorState`) together with theorems about its documented behaviour.

Conventions of the embedding.

* `SIZE_T` is an unsigned machine word of `w` bits.  Values are naturals below `2 ^ w`
  and every `SIZE_T` operation of the source is written with `addW`, `subW`, `mulW`,
  which reduce modulo `2 ^ w`.  The width `w` is an explicit argument.
* `std::vector<T*> memory` is a list of blocks, a block is a list of elements.
  `new T[blockSize]` yields `blockSize` default-constructed elements; the pair
  `p->~T(); new(p) T();` stores the default value in the slot.
* Indexing outside the block store or outside a block is undefined behaviour in the
  source; here it is the error `Fault.outOfBounds`.  A failed `Assert` is
  `Fault.assertion`.
* Every `for` statement is run by `forLoop`, which carries a fuel bound; a loop that
  still wants to iterate when the fuel is used up yields `Fault.fuel`.
* Loop counters are declared `INT` in the source.  They are kept as naturals, which
  agrees with the source as long as block sizes and block counts fit in an `INT`.
-/

/-- Ways in which an operation of the source can fail to return. -/
inductive Fault where
  | assertion
  | outOfBounds
  | divByZero
  | fuel
  deriving DecidableEq, Repr

/-- Addition of two `SIZE_T` values of width `w`. -/
def addW (w a b : Nat) : Nat := (a + b) % 2 ^ w

/-- Subtraction of two `SIZE_T` values of width `w` (wraps below zero). -/
def subW (w a b : Nat) : Nat := (a + (2 ^ w - b % 2 ^ w)) % 2 ^ w

/-- Multiplication of two `SIZE_T` values of width `w`. -/
def mulW (w a b : Nat) : Nat := (a * b) % 2 ^ w

/-- Class `AllocatorState`: a snapshot `(index, remains)` of the frontier. -/
structure AllocatorState where
  index : Nat
  remains : Nat
  deriving DecidableEq, Repr

/-- Class `Allocator<T>`: the block size, the frontier and the block store. -/
structure Allocator (T : Type) where
  blockSize : Nat
  index : Nat
  remains : Nat
  memory : List (List T)
  deriving DecidableEq, Repr

/-- A run handed out by `New`: the address `&memory[block][offset]` and the number of
elements requested. -/
structure Run where
  block : Nat
  offset : Nat
  len : Nat
  deriving DecidableEq, Repr

/-- Modelled from the spec: the `Assert` macro is declared outside the given sources;
a violated assertion is a fatal contract error and the operation does not return. -/
def Assert (c : Bool) : Except Fault Unit :=
  if c then .ok () else .error Fault.assertion

/-- The statement `for (j = start; cond j; j = next j) body`, with a fuel bound on the
number of iterations. -/
def forLoop {σ : Type} (fuel : Nat) (cond : Nat → Bool) (next : Nat → Nat)
    (body : Nat → σ → Except Fault σ) (j : Nat) (s : σ) : Except Fault σ :=
  match fuel with
  | 0 => if cond j then .error Fault.fuel else .ok s
  | n + 1 =>
    if cond j then
      match body j s with
      | .ok s1 => forLoop n cond next body (next j) s1
      | .error e => .error e
    else .ok s

/-- The read `memory[i][j]`. -/
def getSlot {T : Type} (memory : List (List T)) (i j : Nat) : Except Fault T :=
  match memory[i]? with
  | none => .error Fault.outOfBounds
  | some blk =>
    match blk[j]? with
    | none => .error Fault.outOfBounds
    | some v => .ok v

/-- The store `memory[i][j] = v`. -/
def setSlot {T : Type} (memory : List (List T)) (i j : Nat) (v : T) :
    Except Fault (List (List T)) :=
  match memory[i]? with
  | none => .error Fault.outOfBounds
  | some blk =>
    if j < blk.length then .ok (memory.set i (blk.set j v))
    else .error Fault.outOfBounds

/-- The pair `memory[i][j].~T(); new(&memory[i][j]) T();`. -/
def resetSlot {T : Type} [Inhabited T] (memory : List (List T)) (i j : Nat) :
    Except Fault (List (List T)) :=
  setSlot memory i j default

namespace Allocator

variable {T : Type}

/-- The default constructor `Allocator()`. -/
def empty : Allocator T := ⟨0, 0, 0, []⟩

/-- Method `BlockSize`. -/
def BlockSize (a : Allocator T) : Nat := a.blockSize

/-- Method `reset`: frees every block and zeroes the three counters. -/
def reset (_a : Allocator T) : Allocator T := ⟨0, 0, 0, []⟩

/-- Method `getState`. -/
def getState (a : Allocator T) : AllocatorState := ⟨a.index, a.remains⟩

/-- The loop `for (j = lo; j < blockSize; j++) reset memory[i][j]`. -/
def resetFrom [Inhabited T] (fuel blockSize i lo : Nat) (m : List (List T)) :
    Except Fault (List (List T)) :=
  forLoop fuel (fun j => decide (j < blockSize)) (fun j => j + 1)
    (fun j m1 => resetSlot m1 i j) lo m

/-- Method `DeleteAll`. -/
def DeleteAll [Inhabited T] (fuel : Nat) (a : Allocator T) : Except Fault (Allocator T) :=
  if a.memory.length ≠ 0 then
    match forLoop fuel (fun i => decide (i < a.memory.length)) (fun i => i + 1)
        (fun i m => resetFrom fuel a.blockSize i 0 m) 0 a.memory with
    | .ok m => .ok ⟨a.blockSize, 0, a.blockSize, m⟩
    | .error e => .error e
  else .ok a

/-- Method `rollBack`.  In the branch `state.index < index` the expressions
`state.index + 1` and `index - 1` cannot wrap.  The third clause of the last `for`
statement is the comparison `j < remains`, whose value is discarded: the counter is
left as it is. -/
def rollBack [Inhabited T] (fuel : Nat) (state : AllocatorState) (a : Allocator T) :
    Except Fault (Allocator T) :=
  if state.index < a.index ∨ (state.index = a.index ∧ state.remains < a.remains) then
    if state.index < a.index then
      match resetFrom fuel a.blockSize state.index state.remains a.memory with
      | .error e => .error e
      | .ok m1 =>
        match forLoop fuel (fun i => decide (i < a.index - 1)) (fun i => i + 1)
            (fun i m => resetFrom fuel a.blockSize i 0 m) (state.index + 1) m1 with
        | .error e => .error e
        | .ok m2 =>
          match forLoop fuel (fun j => decide (j < a.remains)) (fun j => j + 1)
              (fun j m => resetSlot m a.index j) 0 m2 with
          | .error e => .error e
          | .ok m3 => .ok ⟨a.blockSize, state.index, state.remains, m3⟩
    else
      match forLoop fuel (fun j => decide (j < state.remains)) (fun j => j)
          (fun j m => resetSlot m a.index j) 0 a.memory with
      | .error e => .error e
      | .ok m1 => .ok ⟨a.blockSize, a.index, state.remains, m1⟩
  else .ok a

/-- Method `SetBlockSize`: `reset()`, then `index = -1`, `remains = 0`. -/
def SetBlockSize (w blockSize : Nat) (_a : Allocator T) : Allocator T :=
  ⟨blockSize, subW w 0 1, 0, []⟩

/-- The block advance shared by `New` and `push_back`: grow the store when `index` is
the last block (`index == memory.size() - 1`), then `index++; remains = blockSize`. -/
def advance [Inhabited T] (w : Nat) (a : Allocator T) : Allocator T :=
  ⟨a.blockSize, addW w a.index 1, a.blockSize,
    if a.index = subW w a.memory.length 1 then
      a.memory ++ [List.replicate a.blockSize default]
    else a.memory⟩

/-- Method `New`.  The result is `none` for the null pointer, otherwise the run that
starts at `&memory[index][blockSize - remains]`. -/
def New [Inhabited T] (w elements : Nat) (a : Allocator T) :
    Except Fault (Option Run × Allocator T) :=
  if elements = 0 then .ok (none, a)
  else
    match Assert (decide (elements ≤ a.blockSize)) with
    | .error e => .error e
    | .ok _ =>
      let a1 := if a.remains < elements then advance w a else a
      if a1.index < a1.memory.length then
        .ok (some ⟨a1.index, subW w a1.blockSize a1.remains, elements⟩,
             ⟨a1.blockSize, a1.index, subW w a1.remains elements, a1.memory⟩)
      else .error Fault.outOfBounds

/-- Method `push_back`. -/
def push_back [Inhabited T] (w : Nat) (t : T) (a : Allocator T) :
    Except Fault (Allocator T) :=
  let a1 := if a.remains = 0 then advance w a else a
  match setSlot a1.memory a1.index (subW w a1.blockSize a1.remains) t with
  | .error e => .error e
  | .ok m => .ok ⟨a1.blockSize, a1.index, subW w a1.remains 1, m⟩

/-- Method `pop_back`.  The guard `index >= 0` compares an unsigned value with zero
and always holds. -/
def pop_back [Inhabited T] (w : Nat) (a : Allocator T) : Except Fault (Allocator T) :=
  let a1 : Allocator T :=
    if a.remains = a.blockSize then ⟨a.blockSize, subW w a.index 1, 0, a.memory⟩ else a
  if 0 ≤ a1.index then
    let r := addW w a1.remains 1
    match resetSlot a1.memory a1.index (subW w a1.blockSize r) with
    | .error e => .error e
    | .ok m => .ok ⟨a1.blockSize, a1.index, r, m⟩
  else .ok a1

/-- Method `size`.  The guard `index >= 0` always holds for an unsigned `index`. -/
def size (w : Nat) (a : Allocator T) : Nat :=
  if 0 ≤ a.index then
    subW w (addW w (mulW w a.index a.blockSize) a.blockSize) a.remains
  else 0

/-- Method `Get`: the element `memory[index / blockSize][index % blockSize]`. -/
def Get (a : Allocator T) (index : Nat) : Except Fault T :=
  if a.blockSize = 0 then .error Fault.divByZero
  else getSlot a.memory (index / a.blockSize) (index % a.blockSize)

end Allocator

/-- One call made by a client of the arena.  `rollBack fuel n` rolls back to the
`n`-th checkpoint the client captured; `write i j t` is the client storing `t`
into a slot it holds a reference to. -/
inductive Op (T : Type) where
  | New (elements : Nat)
  | push_back (t : T)
  | pop_back
  | DeleteAll (fuel : Nat)
  | getState
  | rollBack (fuel : Nat) (n : Nat)
  | write (i j : Nat) (t : T)
  deriving Repr

/-- A client session: the arena and the checkpoints captured so far, oldest first. -/
structure Session (T : Type) where
  arena : Allocator T
  checkpoints : List AllocatorState

namespace Session

variable {T : Type}

/-- One client call on a session. -/
def step [Inhabited T] (w : Nat) (op : Op T) (s : Session T) : Except Fault (Session T) :=
  match op with
  | .New k =>
    match s.arena.New w k with
    | .ok (_, a) => .ok ⟨a, s.checkpoints⟩
    | .error e => .error e
  | .push_back t =>
    match s.arena.push_back w t with
    | .ok a => .ok ⟨a, s.checkpoints⟩
    | .error e => .error e
  | .pop_back =>
    match s.arena.pop_back w with
    | .ok a => .ok ⟨a, s.checkpoints⟩
    | .error e => .error e
  | .DeleteAll fuel =>
    match s.arena.DeleteAll fuel with
    | .ok a => .ok ⟨a, s.checkpoints⟩
    | .error e => .error e
  | .getState => .ok ⟨s.arena, s.checkpoints ++ [s.arena.getState]⟩
  | .rollBack fuel n =>
    match s.checkpoints[n]? with
    | none => .ok s
    | some c =>
      match s.arena.rollBack fuel c with
      | .ok a => .ok ⟨a, s.checkpoints⟩
      | .error e => .error e
  | .write i j t =>
    match setSlot s.arena.memory i j t with
    | .ok m => .ok ⟨⟨s.arena.blockSize, s.arena.index, s.arena.remains, m⟩, s.checkpoints⟩
    | .error e => .error e

/-- A sequence of client calls, left to right. -/
def run [Inhabited T] (w : Nat) (ops : List (Op T)) (s : Session T) :
    Except Fault (Session T) :=
  match ops with
  | [] => .ok s
  | op :: rest =>
    match step w op s with
    | .ok s1 => run w rest s1
    | .error e => .error e

end Session

/-- The arena `a` is reachable after `SetBlockSize(b)`: some sequence of client calls
that all return leads from the freshly configured arena to `a`, and the number of
blocks of `a` is representable as a `SIZE_T`. -/
def Reachable {T : Type} [Inhabited T] (w b : Nat) (a : Allocator T) : Prop :=
  ∃ (a0 : Allocator T) (ops : List (Op T)) (s : Session T),
    Session.run w ops ⟨Allocator.SetBlockSize w b a0, []⟩ = .ok s ∧ s.arena = a ∧
      a.memory.length < 2 ^ w

/-- What one `New` call of a session handed out: the length asked for, the run that
was returned, and the frontier right after the call. -/
structure Handout where
  asked : Nat
  run : Run
  after : AllocatorState

/-- The call moves the frontier forward only: `New(k)` with `1 <= k <= b`,
`push_back`, or `getState` (no `rollBack`, `DeleteAll` or `pop_back`). -/
def Op.grows {T : Type} (b : Nat) (op : Op T) : Bool :=
  match op with
  | .New k => decide (1 ≤ k ∧ k ≤ b)
  | .push_back _ => true
  | .getState => true
  | _ => false

/-- The length a call asks `New` for, if it is a call of `New`. -/
def Op.asked {T : Type} (op : Op T) : Option Nat :=
  match op with
  | .New k => some k
  | _ => none

/-- The handout of one call made on the session `s`: for `New(k)` that returns a run,
that run with the frontier after the call; nothing for the other calls. -/
def Op.handout {T : Type} [Inhabited T] (w : Nat) (op : Op T) (s : Session T) :
    List Handout :=
  match op with
  | .New k =>
    match Allocator.New w k s.arena with
    | .ok (some r, a) => [⟨k, r, a.getState⟩]
    | _ => []
  | _ => []

/-- A sequence of client calls, left to right, with the handouts of its `New` calls
in the order of the calls. -/
def Session.trace {T : Type} [Inhabited T] (w : Nat) (ops : List (Op T)) (s : Session T) :
    Except Fault (List Handout × Session T) :=
  match ops with
  | [] => .ok ([], s)
  | op :: rest =>
    match Session.step w op s with
    | .error e => .error e
    | .ok s1 =>
      match Session.trace w rest s1 with
      | .error e => .error e
      | .ok (hs, s2) => .ok (Op.handout w op s ++ hs, s2)

/-- Two runs share no slot: they lie in different blocks, or one ends before the other
starts. -/
def Run.disjoint (r1 r2 : Run) : Prop :=
  r1.block ≠ r2.block ∨ r1.offset + r1.len ≤ r2.offset ∨ r2.offset + r2.len ≤ r1.offset

/-- The call is an allocation: `New` or `push_back`. -/
def Op.isAlloc {T : Type} (op : Op T) : Bool :=
  match op with
  | .New _ => true
  | .push_back _ => true
  | _ => false

/-- The spec's description of `Append(value)`: `New(1)` followed by the assignment of
`t` through the pointer that `New` returned (a null pointer cannot be assigned
through). -/
def appendByNew {T : Type} [Inhabited T] (w : Nat) (t : T) (a : Allocator T) :
    Except Fault (Allocator T) :=
  match Allocator.New w 1 a with
  | .error e => .error e
  | .ok (none, _) => .error Fault.outOfBounds
  | .ok (some r, a1) =>
    match setSlot a1.memory r.block r.offset t with
    | .error e => .error e
    | .ok m => .ok ⟨a1.blockSize, a1.index, a1.remains, m⟩

/-- The frontier is in the last block of the store (`index == memory.size() - 1`
without wrap), or it is the sentinel and the store has no block. -/
def atLastBlock {T : Type} (w : Nat) (a : Allocator T) : Prop :=
  (0 < a.memory.length ∧ a.index + 1 = a.memory.length) ∨
    (a.memory.length = 0 ∧ a.index = 2 ^ w - 1)

/-- The change of the block count from `a` to `a1` on a request for `k` slots: never
fewer blocks; exactly one more when the current block cannot serve the request
(`remains < k`) and the frontier is at the last block or the sentinel of an empty
store; the same number otherwise. -/
def BlockGrowth {T : Type} (w k : Nat) (a a1 : Allocator T) : Prop :=
  a.memory.length ≤ a1.memory.length ∧
  ((a.remains < k ∧ atLastBlock w a) → a1.memory.length = a.memory.length + 1) ∧
  (¬ (a.remains < k ∧ atLastBlock w a) → a1.memory.length = a.memory.length)

open Allocator

/-! ## Predicates used in the proofs -/

/-- The store has `n` blocks of `b` slots each. -/
def Store {T : Type} (b n : Nat) (m : List (List T)) : Prop :=
  m.length = n ∧ ∀ blk ∈ m, blk.length = b

/-- The invariant of a configured arena: block size `b`, every block has `b` slots,
the block count is a `SIZE_T`, `remains <= blockSize`, and `index` is a valid block
index or the sentinel `(SIZE_T)(-1)` of an arena without blocks. -/
structure ArenaInv {T : Type} (w b : Nat) (a : Allocator T) : Prop where
  bpos : 1 ≤ b
  blt : b < 2 ^ w
  bs : a.blockSize = b
  store : Store b a.memory.length a.memory
  len : a.memory.length < 2 ^ w
  rem : a.remains ≤ b
  idx : a.index < a.memory.length ∨ (a.index = 2 ^ w - 1 ∧ a.memory = [] ∧ a.remains = 0)

/-- A checkpoint that `getState` can have returned in an arena with block size `b`
that now has `n` blocks. -/
def CpOK (w b n : Nat) (c : AllocatorState) : Prop :=
  c.remains ≤ b ∧ (c.index < n ∨ (c.index = 2 ^ w - 1 ∧ c.remains = 0))

/-- The arena after the block-advance test of `New(k)`: advanced when fewer than `k`
slots remain, unchanged otherwise. -/
def serve {T : Type} [Inhabited T] (w k : Nat) (a : Allocator T) : Allocator T :=
  if a.remains < k then advance w a else a

/-- The arena after the step-back test of `pop_back`. -/
def back {T : Type} (w : Nat) (a : Allocator T) : Allocator T :=
  if a.remains = a.blockSize then ⟨a.blockSize, subW w a.index 1, 0, a.memory⟩ else a

/-- The invariant of a session: the arena invariant, and every captured checkpoint is
one that `getState` can have returned. -/
def SInv {T : Type} (w b : Nat) (s : Session T) : Prop :=
  ArenaInv w b s.arena ∧ ∀ c ∈ s.checkpoints, CpOK w b s.arena.memory.length c

/-- The flat position of the frontier: the number of slots that lie before it, skipped
tails included.  It is `0` in the sentinel state. -/
def fill {T : Type} (w : Nat) (a : Allocator T) : Nat :=
  if a.index = 2 ^ w - 1 then 0 else a.index * a.blockSize + (a.blockSize - a.remains)

/-! ## Word arithmetic -/

theorem subW_of_le {w a b : Nat} (hab : b ≤ a) (ha : a < 2 ^ w) : subW w a b = a - b := by
  unfold subW
  have hb : b % 2 ^ w = b := Nat.mod_eq_of_lt (by omega)
  rw [hb]
  have h1 : a + (2 ^ w - b) = (a - b) + 2 ^ w := by omega
  rw [h1, Nat.add_mod_right]
  exact Nat.mod_eq_of_lt (by omega)

theorem subW_zero_one (w : Nat) : subW w 0 1 = 2 ^ w - 1 := by
  unfold subW
  have hpos : 0 < 2 ^ w := Nat.two_pow_pos w
  rcases Nat.lt_or_ge 1 (2 ^ w) with h | h
  · rw [Nat.mod_eq_of_lt h, Nat.zero_add]
    exact Nat.mod_eq_of_lt (by omega)
  · have h1 : 2 ^ w = 1 := by omega
    simp [h1]

theorem addW_of_lt {w a b : Nat} (h : a + b < 2 ^ w) : addW w a b = a + b := by
  unfold addW
  exact Nat.mod_eq_of_lt h

theorem addW_max_one {w : Nat} : addW w (2 ^ w - 1) 1 = 0 := by
  unfold addW
  have hpos : 0 < 2 ^ w := Nat.two_pow_pos w
  have h1 : 2 ^ w - 1 + 1 = 2 ^ w := by omega
  rw [h1, Nat.mod_self]

/-! ## Loops and slot updates -/

theorem forLoop_preserves {σ : Type} (P : σ → Prop) {cond : Nat → Bool} {next : Nat → Nat}
    {body : Nat → σ → Except Fault σ}
    (hbody : ∀ j s s1, P s → body j s = .ok s1 → P s1) :
    ∀ (fuel j : Nat) (s s1 : σ), P s → forLoop fuel cond next body j s = .ok s1 → P s1 := by
  intro fuel
  induction fuel with
  | zero =>
    intro j s s1 hP h
    unfold forLoop at h
    split at h
    · cases h
    · cases h; exact hP
  | succ n ih =>
    intro j s s1 hP h
    unfold forLoop at h
    split at h
    · split at h
      · next s2 hb => exact ih _ _ _ (hbody _ _ _ hP hb) h
      · cases h
    · cases h; exact hP

theorem forLoop_count_ok {σ : Type} (P : σ → Prop) (body : Nat → σ → Except Fault σ)
    (hi : Nat) (hbody : ∀ j s, j < hi → P s → ∃ s1, body j s = .ok s1 ∧ P s1) :
    ∀ (fuel lo : Nat) (s : σ), hi - lo ≤ fuel → P s →
      ∃ s1, forLoop fuel (fun j => decide (j < hi)) (fun j => j + 1) body lo s = .ok s1
        ∧ P s1 := by
  intro fuel
  induction fuel with
  | zero =>
    intro lo s hf hP
    refine ⟨s, ?_, hP⟩
    unfold forLoop
    have : ¬ lo < hi := by omega
    simp [this]
  | succ n ih =>
    intro lo s hf hP
    unfold forLoop
    by_cases hlt : lo < hi
    · obtain ⟨s1, h1, hP1⟩ := hbody lo s hlt hP
      obtain ⟨s2, h2, hP2⟩ := ih (lo + 1) s1 (by omega) hP1
      refine ⟨s2, ?_, hP2⟩
      simp [hlt, h1, h2]
    · exact ⟨s, by simp [hlt], hP⟩

theorem setSlot_eq {T : Type} {b n : Nat} {m : List (List T)} (hm : Store b n m)
    {i j : Nat} (hi : i < n) (hj : j < b) (v : T) :
    ∃ blk, m[i]? = some blk ∧ setSlot m i j v = .ok (m.set i (blk.set j v)) := by
  have hil : i < m.length := by rw [hm.1]; exact hi
  refine ⟨m[i], List.getElem?_eq_getElem hil, ?_⟩
  unfold setSlot
  rw [List.getElem?_eq_getElem hil]
  have hlen : (m[i]).length = b := hm.2 _ (List.getElem_mem _)
  simp [hlen, hj]

theorem setSlot_store {T : Type} {b n : Nat} {m m1 : List (List T)} {i j : Nat} {v : T}
    (hm : Store b n m) (h : setSlot m i j v = .ok m1) : Store b n m1 := by
  unfold setSlot at h
  split at h
  · cases h
  · next blk hblk =>
    split at h
    · cases h
      refine ⟨by rw [List.length_set]; exact hm.1, ?_⟩
      intro x hx
      rcases List.mem_or_eq_of_mem_set hx with hx1 | hx1
      · exact hm.2 x hx1
      · rw [hx1, List.length_set]
        exact hm.2 blk (List.getElem?_mem hblk)
    · cases h

theorem setSlot_ok {T : Type} {b n : Nat} {m : List (List T)} (hm : Store b n m)
    {i j : Nat} (hi : i < n) (hj : j < b) (v : T) :
    ∃ m1, setSlot m i j v = .ok m1 ∧ Store b n m1 := by
  obtain ⟨blk, _, h⟩ := setSlot_eq hm hi hj v
  exact ⟨_, h, setSlot_store hm h⟩

theorem resetFrom_store {T : Type} [Inhabited T] {b n : Nat} {fuel bs i lo : Nat}
    {m m1 : List (List T)} (hm : Store b n m) (h : Allocator.resetFrom fuel bs i lo m = .ok m1) :
    Store b n m1 :=
  forLoop_preserves (Store b n) (fun _ _ _ hs hb => setSlot_store hs hb) _ _ _ _ hm h

theorem resetFrom_ok {T : Type} [Inhabited T] {b n : Nat} (fuel lo : Nat) {i : Nat}
    {m : List (List T)} (hm : Store b n m) (hi : i < n) (hf : b ≤ fuel) :
    ∃ m1, Allocator.resetFrom fuel b i lo m = .ok m1 ∧ Store b n m1 :=
  forLoop_count_ok (Store b n) (fun j m1 => resetSlot m1 i j) b
    (fun _ _ hj hs => setSlot_ok hs hi hj default) fuel lo m (by omega) hm

theorem setSlot_length {T : Type} {m m1 : List (List T)} {i j : Nat} {v : T}
    (h : setSlot m i j v = .ok m1) : m1.length = m.length := by
  unfold setSlot at h
  split at h
  · cases h
  · split at h
    · cases h; rw [List.length_set]
    · cases h

theorem setSlot_bound {T : Type} {m m1 : List (List T)} {i j : Nat} {v : T}
    (h : setSlot m i j v = .ok m1) : i < m.length := by
  unfold setSlot at h
  split at h
  · cases h
  · next blk hblk =>
    rcases Nat.lt_or_ge i m.length with hlt | hge
    · exact hlt
    · rw [List.getElem?_eq_none hge] at hblk; cases hblk

theorem resetFrom_length {T : Type} [Inhabited T] {fuel bs i lo : Nat}
    {m m1 : List (List T)} (h : Allocator.resetFrom fuel bs i lo m = .ok m1) :
    m1.length = m.length :=
  forLoop_preserves (fun x => x.length = m.length)
    (fun _ _ _ hs hb => (setSlot_length hb).trans hs) _ _ _ _ rfl h

/-! ## The frontier invariant -/

theorem CpOK.mono {w b n n1 : Nat} {c : AllocatorState} (h : CpOK w b n c) (hn : n ≤ n1) :
    CpOK w b n1 c := by
  refine ⟨h.1, ?_⟩
  rcases h.2 with h2 | h2
  · exact Or.inl (by omega)
  · exact Or.inr h2

theorem ArenaInv.getState {T : Type} {w b : Nat} {a : Allocator T} (h : ArenaInv w b a) :
    CpOK w b a.memory.length a.getState := by
  refine ⟨h.rem, ?_⟩
  rcases h.idx with h2 | ⟨h2, _, h3⟩
  · exact Or.inl h2
  · exact Or.inr ⟨h2, h3⟩

theorem arenaInv_SetBlockSize {T : Type} {w b : Nat} (hb : 1 ≤ b) (hbw : b < 2 ^ w)
    (a0 : Allocator T) : ArenaInv w b (SetBlockSize w b a0) := by
  refine ⟨hb, hbw, rfl, ⟨rfl, ?_⟩, ?_, Nat.zero_le _, Or.inr ⟨subW_zero_one w, rfl, rfl⟩⟩
  · intro blk hblk; cases hblk
  · exact Nat.two_pow_pos w

/-- The arena is past the sentinel state: it has a current block. -/
theorem ArenaInv.index_lt_of_remains {T : Type} {w b : Nat} {a : Allocator T} (h : ArenaInv w b a)
    (hr : 0 < a.remains) : a.index < a.memory.length := by
  rcases h.idx with h2 | ⟨_, _, h3⟩
  · exact h2
  · omega

theorem advance_spec {T : Type} [Inhabited T] {w b : Nat} {a : Allocator T}
    (h : ArenaInv w b a) :
    (advance w a).blockSize = b ∧ (advance w a).remains = b ∧
    (advance w a).index < (advance w a).memory.length ∧
    Store b (advance w a).memory.length (advance w a).memory ∧
    (advance w a).index = (a.index + 1) % 2 ^ w ∧
    (∃ ext, (advance w a).memory = a.memory ++ ext ∧ ext.length ≤ 1) := by
  have hN : 0 < 2 ^ w := Nat.two_pow_pos w
  have hlen := h.len
  have hbs := h.bs
  have hstore := h.store
  unfold advance
  refine ⟨hbs, hbs, ?_, ?_, rfl, ?_⟩ <;> dsimp only <;> rw [hbs]
  · rcases h.idx with h2 | ⟨h2, h3, _⟩
    · have hsub : subW w a.memory.length 1 = a.memory.length - 1 :=
        subW_of_le (by omega) hlen
      have hadd : addW w a.index 1 = a.index + 1 := addW_of_lt (by omega)
      rw [hsub, hadd]
      split
      · rw [List.length_append]; simp; omega
      · omega
    · rw [h3, h2]
      simp only [List.length_nil, subW_zero_one, addW_max_one, if_true, List.nil_append,
        List.length_singleton]
      exact Nat.zero_lt_one
  · split
    · refine ⟨rfl, ?_⟩
      intro blk hblk
      rcases List.mem_append.mp hblk with h1 | h1
      · exact hstore.2 blk h1
      · rw [List.mem_singleton] at h1
        rw [h1, List.length_replicate]
    · exact hstore
  · split
    · exact ⟨_, rfl, by simp⟩
    · exact ⟨[], by simp, by simp⟩

theorem serve_spec {T : Type} [Inhabited T] {w b k : Nat} {a : Allocator T}
    (h : ArenaInv w b a) (hk : 0 < k) (hkb : k ≤ b) :
    (serve w k a).blockSize = b ∧ k ≤ (serve w k a).remains ∧ (serve w k a).remains ≤ b ∧
    (serve w k a).index < (serve w k a).memory.length ∧
    Store b (serve w k a).memory.length (serve w k a).memory ∧
    (∃ ext, (serve w k a).memory = a.memory ++ ext ∧ ext.length ≤ 1) := by
  unfold serve
  split
  · obtain ⟨h1, h2, h3, h4, _, h6⟩ := advance_spec (T := T) h
    exact ⟨h1, by omega, by omega, h3, h4, h6⟩
  · exact ⟨h.bs, by omega, h.rem, h.index_lt_of_remains (by omega), h.store,
      ⟨[], by simp, by simp⟩⟩

theorem New_spec {T : Type} [Inhabited T] {w b k : Nat} {a : Allocator T}
    (h : ArenaInv w b a) (hk : 0 < k) (hkb : k ≤ b) :
    New w k a = .ok (some ⟨(serve w k a).index, b - (serve w k a).remains, k⟩,
      ⟨b, (serve w k a).index, (serve w k a).remains - k, (serve w k a).memory⟩) := by
  obtain ⟨h1, h2, h3, h4, _, _⟩ := serve_spec (T := T) h hk hkb
  have hbw := h.blt
  have e1 : subW w b (serve w k a).remains = b - (serve w k a).remains :=
    subW_of_le h3 hbw
  have e2 : subW w (serve w k a).remains k = (serve w k a).remains - k :=
    subW_of_le h2 (by omega)
  have hk0 : k ≠ 0 := by omega
  have hkb1 : k ≤ a.blockSize := by rw [h.bs]; exact hkb
  unfold New
  simp only [hk0, if_false, Assert, hkb1, decide_True, if_true]
  have hs : (if a.remains < k then advance w a else a) = serve w k a := rfl
  simp only [hs, if_pos h4, h1, e1, e2]

theorem push_back_spec {T : Type} [Inhabited T] {w b : Nat} {a : Allocator T}
    (h : ArenaInv w b a) (t : T) :
    ∃ blk, (serve w 1 a).memory[(serve w 1 a).index]? = some blk ∧
      push_back w t a = .ok ⟨b, (serve w 1 a).index, (serve w 1 a).remains - 1,
        (serve w 1 a).memory.set (serve w 1 a).index
          (blk.set (b - (serve w 1 a).remains) t)⟩ := by
  obtain ⟨h1, h2, h3, h4, h5, _⟩ := serve_spec (T := T) h Nat.one_pos h.bpos
  have hbw := h.blt
  have e1 : subW w b (serve w 1 a).remains = b - (serve w 1 a).remains :=
    subW_of_le h3 hbw
  have e2 : subW w (serve w 1 a).remains 1 = (serve w 1 a).remains - 1 :=
    subW_of_le h2 (by omega)
  obtain ⟨blk, hblk, hset⟩ := setSlot_eq h5 h4
    (show b - (serve w 1 a).remains < b by omega) t
  refine ⟨blk, hblk, ?_⟩
  have hs : (if a.remains = 0 then advance w a else a) = serve w 1 a := by
    unfold serve
    by_cases h0 : a.remains = 0
    · simp [h0]
    · have : ¬ a.remains < 1 := by omega
      simp [h0, this]
  unfold push_back
  simp only [hs, h1, e1, e2, hset]

/-! ## The block store never shrinks -/

theorem advance_length {T : Type} [Inhabited T] (w : Nat) (a : Allocator T) :
    a.memory.length ≤ (advance w a).memory.length := by
  unfold advance
  dsimp only
  split
  · rw [List.length_append]; omega
  · exact Nat.le_refl _

theorem serve_length {T : Type} [Inhabited T] (w k : Nat) (a : Allocator T) :
    a.memory.length ≤ (serve w k a).memory.length := by
  unfold serve
  split
  · exact advance_length w a
  · exact Nat.le_refl _

theorem back_memory {T : Type} (w : Nat) (a : Allocator T) :
    (back w a).memory = a.memory := by
  unfold back; split <;> rfl

theorem back_blockSize {T : Type} (w : Nat) (a : Allocator T) :
    (back w a).blockSize = a.blockSize := by
  unfold back; split <;> rfl

theorem New_eq {T : Type} [Inhabited T] (w k : Nat) (a : Allocator T) :
    New w k a =
      if k = 0 then .ok (none, a)
      else if k ≤ a.blockSize then
        if (serve w k a).index < (serve w k a).memory.length then
          .ok (some ⟨(serve w k a).index,
                subW w (serve w k a).blockSize (serve w k a).remains, k⟩,
               ⟨(serve w k a).blockSize, (serve w k a).index,
                subW w (serve w k a).remains k, (serve w k a).memory⟩)
        else .error Fault.outOfBounds
      else .error Fault.assertion := by
  unfold New Assert serve
  by_cases hk : k = 0
  · simp [hk]
  · by_cases hb : k ≤ a.blockSize
    · simp [hk, hb]
    · simp [hk, hb]

theorem push_back_eq {T : Type} [Inhabited T] (w : Nat) (t : T) (a : Allocator T) :
    push_back w t a =
      match setSlot (serve w 1 a).memory (serve w 1 a).index
          (subW w (serve w 1 a).blockSize (serve w 1 a).remains) t with
      | .error e => .error e
      | .ok m => .ok ⟨(serve w 1 a).blockSize, (serve w 1 a).index,
          subW w (serve w 1 a).remains 1, m⟩ := by
  have hs : (if a.remains = 0 then advance w a else a) = serve w 1 a := by
    unfold serve
    by_cases h0 : a.remains = 0
    · simp [h0]
    · have : ¬ a.remains < 1 := by omega
      simp [h0, this]
  unfold push_back
  simp only [hs]

theorem pop_back_eq {T : Type} [Inhabited T] (w : Nat) (a : Allocator T) :
    pop_back w a =
      match resetSlot (back w a).memory (back w a).index
          (subW w (back w a).blockSize (addW w (back w a).remains 1)) with
      | .error e => .error e
      | .ok m => .ok ⟨(back w a).blockSize, (back w a).index,
          addW w (back w a).remains 1, m⟩ := by
  unfold pop_back
  have hs : (if a.remains = a.blockSize then
      (⟨a.blockSize, subW w a.index 1, 0, a.memory⟩ : Allocator T) else a) = back w a := rfl
  simp only [hs, Nat.zero_le, if_true]

theorem New_length {T : Type} [Inhabited T] {w k : Nat} {a a1 : Allocator T}
    {r : Option Run} (h : New w k a = .ok (r, a1)) :
    a.memory.length ≤ a1.memory.length := by
  rw [New_eq] at h
  by_cases hk : k = 0
  · rw [if_pos hk] at h; cases h; exact Nat.le_refl _
  · rw [if_neg hk] at h
    by_cases hb : k ≤ a.blockSize
    · rw [if_pos hb] at h
      by_cases hi : (serve w k a).index < (serve w k a).memory.length
      · rw [if_pos hi] at h; cases h; exact serve_length w k a
      · rw [if_neg hi] at h; cases h
    · rw [if_neg hb] at h; cases h

theorem push_back_length {T : Type} [Inhabited T] {w : Nat} {t : T} {a a1 : Allocator T}
    (h : push_back w t a = .ok a1) : a.memory.length ≤ a1.memory.length := by
  rw [push_back_eq] at h
  split at h
  · cases h
  · next m hm =>
    cases h
    dsimp only
    rw [setSlot_length hm]
    exact serve_length w 1 a

theorem pop_back_length {T : Type} [Inhabited T] {w : Nat} {a a1 : Allocator T}
    (h : pop_back w a = .ok a1) : a1.memory.length = a.memory.length := by
  rw [pop_back_eq] at h
  split at h
  · cases h
  · next m hm =>
    cases h
    dsimp only
    rw [setSlot_length hm, back_memory]

theorem fullReset_length {T : Type} [Inhabited T] {fuel bs : Nat} {cond : Nat → Bool}
    {lo : Nat} {m m1 : List (List T)}
    (h : forLoop fuel cond (fun i => i + 1) (fun i x => resetFrom fuel bs i 0 x) lo m
      = .ok m1) : m1.length = m.length :=
  forLoop_preserves (fun x => x.length = m.length)
    (fun _ _ _ hs hb => (resetFrom_length hb).trans hs) _ _ _ _ rfl h

theorem slotLoop_length {T : Type} [Inhabited T] {fuel i : Nat} {cond : Nat → Bool}
    {next : Nat → Nat} {lo : Nat} {m m1 : List (List T)}
    (h : forLoop fuel cond next (fun j x => resetSlot x i j) lo m = .ok m1) :
    m1.length = m.length :=
  forLoop_preserves (fun x => x.length = m.length)
    (fun _ _ _ hs hb => (setSlot_length hb).trans hs) _ _ _ _ rfl h

theorem DeleteAll_length {T : Type} [Inhabited T] {fuel : Nat} {a a1 : Allocator T}
    (h : DeleteAll fuel a = .ok a1) : a1.memory.length = a.memory.length := by
  unfold DeleteAll at h
  split at h
  · split at h
    · next m hm => cases h; exact fullReset_length hm
    · cases h
  · cases h; rfl

theorem rollBack_length {T : Type} [Inhabited T] {fuel : Nat} {c : AllocatorState}
    {a a1 : Allocator T} (h : rollBack fuel c a = .ok a1) :
    a1.memory.length = a.memory.length := by
  unfold rollBack at h
  split at h
  · split at h
    · split at h
      · cases h
      · next m1 hm1 =>
        split at h
        · cases h
        · next m2 hm2 =>
          split at h
          · cases h
          · next m3 hm3 =>
            cases h
            dsimp only
            rw [slotLoop_length hm3, fullReset_length hm2, resetFrom_length hm1]
    · split at h
      · cases h
      · next m1 hm1 => cases h; exact slotLoop_length hm1
  · cases h; rfl

/-! ## Every operation keeps the invariant -/

theorem New_inv {T : Type} [Inhabited T] {w b k : Nat} {a a1 : Allocator T}
    {r : Option Run} (h : ArenaInv w b a) (hn : New w k a = .ok (r, a1))
    (hlen : a1.memory.length < 2 ^ w) : ArenaInv w b a1 := by
  by_cases hk : k = 0
  · rw [New_eq, if_pos hk] at hn; cases hn; exact h
  · by_cases hb : k ≤ b
    · obtain ⟨_, h2, h3, h4, h5, _⟩ := serve_spec (T := T) h (Nat.pos_of_ne_zero hk) hb
      rw [New_spec h (Nat.pos_of_ne_zero hk) hb] at hn
      cases hn
      exact ⟨h.bpos, h.blt, rfl, h5, hlen, by dsimp only; omega, Or.inl h4⟩
    · rw [New_eq, if_neg hk, if_neg (by rw [h.bs]; exact hb)] at hn; cases hn

theorem push_back_inv {T : Type} [Inhabited T] {w b : Nat} {t : T} {a a1 : Allocator T}
    (h : ArenaInv w b a) (hn : push_back w t a = .ok a1)
    (hlen : a1.memory.length < 2 ^ w) : ArenaInv w b a1 := by
  obtain ⟨h1, h2, h3, h4, h5, _⟩ := serve_spec (T := T) h Nat.one_pos h.bpos
  rw [push_back_eq] at hn
  split at hn
  · cases hn
  · next m hm =>
    cases hn
    have e2 : subW w (serve w 1 a).remains 1 = (serve w 1 a).remains - 1 :=
      subW_of_le h2 (by have := h.blt; omega)
    have hst := setSlot_store h5 hm
    have hl := setSlot_length hm
    refine ⟨h.bpos, h.blt, h1, ?_, hlen, ?_, Or.inl ?_⟩
    · dsimp only; rw [hl]; exact hst
    · dsimp only; rw [e2]; omega
    · dsimp only; rw [hl]; exact h4

theorem pop_back_inv {T : Type} [Inhabited T] {w b : Nat} {a a1 : Allocator T}
    (h : ArenaInv w b a) (hn : pop_back w a = .ok a1) : ArenaInv w b a1 := by
  have hbw := h.blt
  have hbp := h.bpos
  have hrem : (back w a).remains + 1 ≤ b := by
    unfold back
    split
    · exact hbp
    · next hne => have := h.rem; have := h.bs; omega
  rw [pop_back_eq] at hn
  split at hn
  · cases hn
  · next m hm =>
    cases hn
    have hst : Store b a.memory.length (back w a).memory := by
      rw [back_memory]; exact h.store
    have hl : m.length = a.memory.length := by
      rw [setSlot_length hm, back_memory]
    have hi := setSlot_bound hm
    rw [back_memory] at hi
    refine ⟨hbp, hbw, by rw [← h.bs]; exact back_blockSize w a, ?_, ?_, ?_, Or.inl ?_⟩
    · dsimp only; rw [hl]; exact setSlot_store hst hm
    · dsimp only; rw [hl]; exact h.len
    · dsimp only; rw [addW_of_lt (by omega)]; exact hrem
    · dsimp only; rw [hl]; exact hi

theorem fullReset_store {T : Type} [Inhabited T] {b n fuel bs : Nat} {cond : Nat → Bool}
    {lo : Nat} {m m1 : List (List T)} (hm : Store b n m)
    (h : forLoop fuel cond (fun i => i + 1) (fun i x => resetFrom fuel bs i 0 x) lo m
      = .ok m1) : Store b n m1 :=
  forLoop_preserves (Store b n) (fun _ _ _ hs hb => resetFrom_store hs hb) _ _ _ _ hm h

theorem slotLoop_store {T : Type} [Inhabited T] {b n fuel i : Nat} {cond : Nat → Bool}
    {next : Nat → Nat} {lo : Nat} {m m1 : List (List T)} (hm : Store b n m)
    (h : forLoop fuel cond next (fun j x => resetSlot x i j) lo m = .ok m1) :
    Store b n m1 :=
  forLoop_preserves (Store b n) (fun _ _ _ hs hb => setSlot_store hs hb) _ _ _ _ hm h

theorem DeleteAll_inv {T : Type} [Inhabited T] {w b fuel : Nat} {a a1 : Allocator T}
    (h : ArenaInv w b a) (hn : DeleteAll fuel a = .ok a1) : ArenaInv w b a1 := by
  have hl := DeleteAll_length hn
  unfold DeleteAll at hn
  by_cases h0 : a.memory.length ≠ 0
  · rw [if_pos h0] at hn
    split at hn
    · next m hm =>
      cases hn
      dsimp only at hl
      refine ⟨h.bpos, h.blt, h.bs, ?_, ?_, ?_, Or.inl ?_⟩
      · dsimp only; rw [hl]; exact fullReset_store h.store hm
      · dsimp only; rw [hl]; exact h.len
      · dsimp only; rw [h.bs]
      · dsimp only; rw [hl]; omega
    · cases hn
  · rw [if_neg h0] at hn; cases hn; exact h

theorem rollBack_inv {T : Type} [Inhabited T] {w b fuel : Nat} {c : AllocatorState}
    {a a1 : Allocator T} (h : ArenaInv w b a) (hc : CpOK w b a.memory.length c)
    (hn : rollBack fuel c a = .ok a1) : ArenaInv w b a1 := by
  have hl := rollBack_length hn
  unfold rollBack at hn
  by_cases hg : c.index < a.index ∨ (c.index = a.index ∧ c.remains < a.remains)
  · rw [if_pos hg] at hn
    have hidx : a.index < a.memory.length := by
      rcases h.idx with h1 | ⟨h1, h2, h3⟩
      · exact h1
      · exfalso
        rcases hc.2 with h4 | ⟨h4, _⟩
        · rw [h2] at h4; exact Nat.not_lt_zero _ h4
        · rcases hg with h5 | ⟨_, h5⟩ <;> omega
    by_cases hlt : c.index < a.index
    · rw [if_pos hlt] at hn
      split at hn
      · cases hn
      · next m1 hm1 =>
        split at hn
        · cases hn
        · next m2 hm2 =>
          split at hn
          · cases hn
          · next m3 hm3 =>
            cases hn
            dsimp only at hl
            have hst := slotLoop_store (fullReset_store (resetFrom_store h.store hm1) hm2) hm3
            refine ⟨h.bpos, h.blt, h.bs, ?_, ?_, hc.1, Or.inl ?_⟩
            · dsimp only; rw [hl]; exact hst
            · dsimp only; rw [hl]; exact h.len
            · dsimp only; rw [hl]; omega
    · rw [if_neg hlt] at hn
      split at hn
      · cases hn
      · next m1 hm1 =>
        cases hn
        dsimp only at hl
        refine ⟨h.bpos, h.blt, h.bs, ?_, ?_, hc.1, Or.inl ?_⟩
        · dsimp only; rw [hl]; exact slotLoop_store h.store hm1
        · dsimp only; rw [hl]; exact h.len
        · dsimp only; rw [hl]; exact hidx
  · rw [if_neg hg] at hn; cases hn; exact h

theorem write_inv {T : Type} {w b i j : Nat} {t : T} {a : Allocator T}
    {m : List (List T)} (h : ArenaInv w b a) (hm : setSlot a.memory i j t = .ok m) :
    ArenaInv w b ⟨a.blockSize, a.index, a.remains, m⟩ := by
  have hl := setSlot_length hm
  refine ⟨h.bpos, h.blt, h.bs, ?_, ?_, h.rem, ?_⟩
  · dsimp only; rw [hl]; exact setSlot_store h.store hm
  · dsimp only; rw [hl]; exact h.len
  · rcases h.idx with h1 | ⟨_, h2, _⟩
    · exact Or.inl (by dsimp only; rw [hl]; exact h1)
    · rw [h2] at hm; cases hm

/-! ## Sessions -/

theorem Session.step_length {T : Type} [Inhabited T] {w : Nat} {op : Op T}
    {s s1 : Session T} (h : Session.step w op s = .ok s1) :
    s.arena.memory.length ≤ s1.arena.memory.length := by
  cases op with
  | New k =>
    simp only [Session.step] at h
    split at h
    · next r a hn => cases h; exact New_length hn
    · cases h
  | push_back t =>
    simp only [Session.step] at h
    split at h
    · next a hn => cases h; exact push_back_length hn
    · cases h
  | pop_back =>
    simp only [Session.step] at h
    split at h
    · next a hn => cases h; exact Nat.le_of_eq (pop_back_length hn).symm
    · cases h
  | DeleteAll fuel =>
    simp only [Session.step] at h
    split at h
    · next a hn => cases h; exact Nat.le_of_eq (DeleteAll_length hn).symm
    · cases h
  | getState =>
    simp only [Session.step] at h
    cases h; exact Nat.le_refl _
  | rollBack fuel n =>
    simp only [Session.step] at h
    split at h
    · cases h; exact Nat.le_refl _
    · split at h
      · next a hn => cases h; exact Nat.le_of_eq (rollBack_length hn).symm
      · cases h
  | write i j t =>
    simp only [Session.step] at h
    split at h
    · next m hm => cases h; exact Nat.le_of_eq (setSlot_length hm).symm
    · cases h

theorem Session.run_length {T : Type} [Inhabited T] {w : Nat} (ops : List (Op T)) :
    ∀ {s s1 : Session T}, Session.run w ops s = .ok s1 →
      s.arena.memory.length ≤ s1.arena.memory.length := by
  induction ops with
  | nil => intro s s1 h; simp only [Session.run] at h; cases h; exact Nat.le_refl _
  | cons op rest ih =>
    intro s s1 h
    simp only [Session.run] at h
    split at h
    · next s2 h2 => exact Nat.le_trans (Session.step_length h2) (ih h)
    · cases h

theorem Session.step_inv {T : Type} [Inhabited T] {w b : Nat} {op : Op T}
    {s s1 : Session T} (hs : SInv w b s) (h : Session.step w op s = .ok s1)
    (hlen : s1.arena.memory.length < 2 ^ w) : SInv w b s1 := by
  have hmono := Session.step_length h
  have hcps : ∀ c ∈ s.checkpoints, CpOK w b s1.arena.memory.length c :=
    fun c hc => (hs.2 c hc).mono hmono
  cases op with
  | New k =>
    simp only [Session.step] at h
    split at h
    · next r a hn => cases h; exact ⟨New_inv hs.1 hn hlen, hcps⟩
    · cases h
  | push_back t =>
    simp only [Session.step] at h
    split at h
    · next a hn => cases h; exact ⟨push_back_inv hs.1 hn hlen, hcps⟩
    · cases h
  | pop_back =>
    simp only [Session.step] at h
    split at h
    · next a hn => cases h; exact ⟨pop_back_inv hs.1 hn, hcps⟩
    · cases h
  | DeleteAll fuel =>
    simp only [Session.step] at h
    split at h
    · next a hn => cases h; exact ⟨DeleteAll_inv hs.1 hn, hcps⟩
    · cases h
  | getState =>
    simp only [Session.step] at h
    cases h
    refine ⟨hs.1, ?_⟩
    intro c hc
    rcases List.mem_append.mp hc with h1 | h1
    · exact hs.2 c h1
    · rw [List.mem_singleton] at h1; rw [h1]; exact hs.1.getState
  | rollBack fuel n =>
    simp only [Session.step] at h
    split at h
    · cases h; exact hs
    · next c hc =>
      split at h
      · next a hn =>
        cases h
        exact ⟨rollBack_inv hs.1 (hs.2 c (List.getElem?_mem hc)) hn, hcps⟩
      · cases h
  | write i j t =>
    simp only [Session.step] at h
    split at h
    · next m hm => cases h; exact ⟨write_inv hs.1 hm, hcps⟩
    · cases h

theorem Session.run_inv {T : Type} [Inhabited T] {w b : Nat} (ops : List (Op T)) :
    ∀ {s s1 : Session T}, SInv w b s → Session.run w ops s = .ok s1 →
      s1.arena.memory.length < 2 ^ w → SInv w b s1 := by
  induction ops with
  | nil => intro s s1 hs h _; simp only [Session.run] at h; cases h; exact hs
  | cons op rest ih =>
    intro s s1 hs h hlen
    simp only [Session.run] at h
    split at h
    · next s2 h2 =>
      have hl2 := Session.run_length rest h
      exact ih (Session.step_inv hs h2 (by omega)) h hlen
    · cases h

theorem Session.run_append {T : Type} [Inhabited T] {w : Nat} (xs ys : List (Op T)) :
    ∀ (s : Session T), Session.run w (xs ++ ys) s =
      match Session.run w xs s with
      | .ok s1 => Session.run w ys s1
      | .error e => .error e := by
  induction xs with
  | nil => intro s; simp only [List.nil_append, Session.run]
  | cons op rest ih =>
    intro s
    simp only [List.cons_append, Session.run]
    cases Session.step w op s with
    | ok s1 => exact ih s1
    | error e => rfl

theorem sinv_start {T : Type} {w b : Nat} (hb : 1 ≤ b) (hbw : b < 2 ^ w)
    (a0 : Allocator T) : SInv w b ⟨SetBlockSize w b a0, []⟩ :=
  ⟨arenaInv_SetBlockSize hb hbw a0, fun _ hc => by cases hc⟩

theorem Reachable.inv {T : Type} [Inhabited T] {w b : Nat} {a : Allocator T}
    (hb : 1 ≤ b) (hbw : b < 2 ^ w) (h : Reachable w b a) : ArenaInv w b a := by
  obtain ⟨a0, ops, s, hrun, hsa, hlen⟩ := h
  rw [← hsa] at hlen ⊢
  exact (Session.run_inv ops (sinv_start hb hbw a0) hrun hlen).1

/-! ## The size of the arena -/

theorem size_eq_mod {T : Type} {w : Nat} {a : Allocator T} (hr : a.remains ≤ a.blockSize)
    (hb : a.blockSize < 2 ^ w) :
    size w a = (a.index * a.blockSize + (a.blockSize - a.remains)) % 2 ^ w := by
  unfold size subW addW mulW
  simp only [Nat.zero_le, if_true]
  rw [Nat.mod_eq_of_lt (show a.remains < 2 ^ w by omega)]
  have h1 : (a.index * a.blockSize % 2 ^ w + a.blockSize) % 2 ^ w
      = (a.index * a.blockSize + a.blockSize) % 2 ^ w := Nat.mod_add_mod _ _ _
  rw [h1, Nat.mod_add_mod]
  have h2 : a.index * a.blockSize + a.blockSize + (2 ^ w - a.remains)
      = (a.index * a.blockSize + (a.blockSize - a.remains)) + 2 ^ w := by omega
  rw [h2, Nat.add_mod_right]

theorem ArenaInv.size_eq {T : Type} {w b : Nat} {a : Allocator T} (h : ArenaInv w b a) :
    size w a = (a.index * b + (b - a.remains)) % 2 ^ w := by
  have h1 : size w a = _ := size_eq_mod (by rw [h.bs]; exact h.rem)
    (by rw [h.bs]; exact h.blt)
  rw [h.bs] at h1
  exact h1

/-! ## Flat positions -/

theorem ArenaInv.fill_eq {T : Type} {w b : Nat} {a : Allocator T} (h : ArenaInv w b a)
    (hi : a.index < a.memory.length) : fill w a = a.index * b + (b - a.remains) := by
  have := h.len
  unfold fill
  rw [if_neg (by omega), h.bs]

theorem ArenaInv.size_eq_fill {T : Type} {w b : Nat} {a : Allocator T}
    (h : ArenaInv w b a) : size w a = fill w a % 2 ^ w := by
  rw [h.size_eq]
  rcases h.idx with h1 | ⟨h1, _, h3⟩
  · rw [h.fill_eq h1]
  · have hN : 0 < 2 ^ w := Nat.two_pow_pos w
    unfold fill
    rw [if_pos h1, h1, h3, Nat.sub_zero]
    have e : (2 ^ w - 1) * b + b = 2 ^ w * b := by
      have : (2 ^ w - 1) * b + b = (2 ^ w - 1 + 1) * b := by rw [Nat.add_mul, Nat.one_mul]
      rw [this, Nat.sub_add_cancel hN]
    rw [e, Nat.mul_mod_right, Nat.zero_mod]

theorem serve_fill {T : Type} [Inhabited T] {w b k : Nat} {a : Allocator T}
    (h : ArenaInv w b a) (hk : 0 < k) :
    (k ≤ a.remains →
      (serve w k a).index * b + (b - (serve w k a).remains) = fill w a) ∧
    (a.remains < k →
      (serve w k a).index * b + (b - (serve w k a).remains) = fill w a + a.remains) := by
  have hlen := h.len
  have hrem := h.rem
  constructor
  · intro hle
    have hs : serve w k a = a := by
      unfold serve; rw [if_neg (by omega)]
    rw [hs, h.fill_eq (h.index_lt_of_remains (by omega))]
  · intro hlt
    have hs : serve w k a = advance w a := by
      unfold serve; rw [if_pos hlt]
    obtain ⟨_, g2, _, _, g5, _⟩ := advance_spec (T := T) h
    rw [hs, g2, g5, Nat.sub_self, Nat.add_zero]
    rcases h.idx with h1 | ⟨h1, _, h3⟩
    · rw [h.fill_eq h1, Nat.mod_eq_of_lt (by omega), Nat.add_mul, Nat.one_mul]
      omega
    · have hN : 0 < 2 ^ w := Nat.two_pow_pos w
      unfold fill
      rw [if_pos h1, h1, h3, Nat.sub_add_cancel hN, Nat.mod_self]
      simp

theorem New_run {T : Type} [Inhabited T] {w b k : Nat} {a a1 : Allocator T}
    {r : Option Run} (h : ArenaInv w b a) (hk : 0 < k) (hkb : k ≤ b)
    (hn : New w k a = .ok (r, a1)) (hlen : a1.memory.length < 2 ^ w) :
    ∃ run, r = some run ∧ ArenaInv w b a1 ∧ fill w a ≤ run.block * b + run.offset ∧
      run.block * b + run.offset + run.len = fill w a1 ∧ run.offset + run.len ≤ b ∧
      run.block < a1.memory.length ∧ run.len = k := by
  have hinv := New_inv h hn hlen
  obtain ⟨_, h2, h3, h4, _, _⟩ := serve_spec (T := T) h hk hkb
  obtain ⟨f1, f2⟩ := serve_fill (T := T) h hk
  rw [New_spec h hk hkb] at hn
  cases hn
  refine ⟨_, rfl, hinv, ?_, ?_, ?_, h4, rfl⟩
  · dsimp only
    rcases Nat.lt_or_ge a.remains k with hlt | hge
    · have := f2 hlt; omega
    · have := f1 hge; omega
  · rw [hinv.fill_eq h4]
    dsimp only
    omega
  · dsimp only; omega

/-! ## Rollback across blocks -/

theorem rollBack_cross_ok {T : Type} [Inhabited T] {w b : Nat} (fuel : Nat)
    (c : AllocatorState) {a : Allocator T} (h : ArenaInv w b a) (hi : a.index < a.memory.length)
    (hc : c.index < a.index) (hf1 : b ≤ fuel) (hf2 : a.index ≤ fuel) :
    ∃ m, rollBack fuel c a = .ok ⟨b, c.index, c.remains, m⟩ ∧
      Store b a.memory.length m := by
  have hrem := h.rem
  obtain ⟨m1, e1, s1⟩ := resetFrom_ok fuel c.remains h.store
    (show c.index < a.memory.length by omega) hf1
  obtain ⟨m2, e2, s2⟩ := forLoop_count_ok (Store b a.memory.length)
    (fun i x => resetFrom fuel b i 0 x) (a.index - 1)
    (fun i x (hlt : i < a.index - 1) hx =>
      resetFrom_ok fuel 0 hx (show i < a.memory.length by omega) hf1)
    fuel (c.index + 1) m1 (by omega) s1
  obtain ⟨m3, e3, s3⟩ := forLoop_count_ok (Store b a.memory.length)
    (fun j x => resetSlot x a.index j) a.remains
    (fun j x (hlt : j < a.remains) hx =>
      setSlot_ok hx hi (show j < b by omega) default)
    fuel 0 m2 (by omega) s2
  refine ⟨m3, ?_, s3⟩
  unfold rollBack
  rw [if_pos (Or.inl hc), if_pos hc, h.bs, e1]
  dsimp only
  rw [e2]
  dsimp only
  rw [e3]

theorem size_congr {T : Type} {w : Nat} {a a1 : Allocator T}
    (h1 : a1.blockSize = a.blockSize) (h2 : a1.index = a.index)
    (h3 : a1.remains = a.remains) : size w a1 = size w a := by
  unfold size
  rw [h1, h2, h3]

/-! ## Rollback inside one block -/

theorem forLoop_stuck {σ : Type} (P : σ → Prop) (cond : Nat → Bool) (next : Nat → Nat)
    (body : Nat → σ → Except Fault σ) (j : Nat) (hc : cond j = true) (hn : next j = j)
    (hbody : ∀ s, P s → ∃ s1, body j s = .ok s1 ∧ P s1) :
    ∀ (fuel : Nat) (s : σ), P s → forLoop fuel cond next body j s = .error Fault.fuel := by
  intro fuel
  induction fuel with
  | zero =>
    intro s _
    unfold forLoop
    rw [if_pos hc]
  | succ n ih =>
    intro s hP
    obtain ⟨s1, h1, hP1⟩ := hbody s hP
    unfold forLoop
    rw [if_pos hc, h1]
    dsimp only
    rw [hn]
    exact ih s1 hP1

theorem rollBack_same_block_stuck {T : Type} [Inhabited T] {w b : Nat}
    {c : AllocatorState} {a : Allocator T} (h : ArenaInv w b a)
    (hi : a.index < a.memory.length) (hc : c.index = a.index) (hpos : 0 < c.remains)
    (hlt : c.remains < a.remains) (fuel : Nat) :
    rollBack fuel c a = .error Fault.fuel := by
  have hloop := forLoop_stuck (Store b a.memory.length)
    (fun j => decide (j < c.remains)) (fun j => j)
    (fun j x => resetSlot x a.index j) 0
    (by simp [hpos]) rfl
    (fun x hx => setSlot_ok hx hi h.bpos default) fuel a.memory h.store
  unfold rollBack
  rw [if_pos (Or.inr ⟨hc, hlt⟩), if_neg (by omega), hloop]

theorem rollBack_noop {T : Type} [Inhabited T] {c : AllocatorState} {a : Allocator T}
    (hg : ¬ (c.index < a.index ∨ (c.index = a.index ∧ c.remains < a.remains)))
    (fuel : Nat) : rollBack fuel c a = .ok a := by
  unfold rollBack
  rw [if_neg hg]

/-! ## Reading slots -/

theorem getSlot_set_ne {T : Type} {m m1 : List (List T)} {i j i1 j1 : Nat} {v : T}
    (h : setSlot m i j v = .ok m1) (hne : i1 ≠ i ∨ j1 ≠ j) :
    getSlot m1 i1 j1 = getSlot m i1 j1 := by
  have hi := setSlot_bound h
  unfold setSlot at h
  rw [List.getElem?_eq_getElem hi] at h
  dsimp only at h
  split at h
  · cases h
    unfold getSlot
    by_cases hii : i1 = i
    · have hj : j1 ≠ j := by
        rcases hne with h1 | h1
        · exact absurd hii h1
        · exact h1
      rw [hii, List.getElem?_set_self hi, List.getElem?_eq_getElem hi]
      dsimp only
      rw [List.getElem?_set_ne (Ne.symm hj)]
    · rw [List.getElem?_set_ne (Ne.symm hii)]
  · cases h

theorem getSlot_append {T : Type} {m ext : List (List T)} {i : Nat} (j : Nat)
    (hi : i < m.length) : getSlot (m ++ ext) i j = getSlot m i j := by
  unfold getSlot
  rw [List.getElem?_append_left hi]

/-- A flat position other than `i * b + j` differs from it in block or offset. -/
theorem flat_ne {b q i j : Nat} (hq : q ≠ i * b + j) :
    q / b ≠ i ∨ q % b ≠ j := by
  by_cases h1 : q / b = i
  · right
    intro h2
    apply hq
    have := Nat.div_add_mod q b
    rw [h1, h2, Nat.mul_comm] at this
    exact this.symm
  · exact Or.inl h1

theorem push_back_fill {T : Type} [Inhabited T] {w b : Nat} {a : Allocator T}
    (h : ArenaInv w b a) (t : T) :
    ∃ a1, push_back w t a = .ok a1 ∧ a1.memory.length ≤ a.memory.length + 1 ∧
      (a1.memory.length < 2 ^ w → ArenaInv w b a1 ∧ fill w a1 = fill w a + 1) ∧
      (∀ q, q < fill w a → Get a1 q = Get a q) := by
  have hbp := h.bpos
  have hrem := h.rem
  obtain ⟨h1, h2, h3, h4, h5, ext, hext, hextl⟩ := serve_spec (T := T) h Nat.one_pos hbp
  obtain ⟨f1, f2⟩ := serve_fill (T := T) h Nat.one_pos
  have hpos : (serve w 1 a).index * b + (b - (serve w 1 a).remains) = fill w a := by
    rcases Nat.lt_or_ge a.remains 1 with hlt | hge
    · have := f2 hlt; omega
    · exact f1 hge
  obtain ⟨blk, hblk, hpush⟩ := push_back_spec h t
  obtain ⟨blk1, hblk1, hset⟩ := setSlot_eq h5 h4
    (show b - (serve w 1 a).remains < b by omega) t
  have hbb : blk1 = blk := by
    rw [hblk] at hblk1; cases hblk1; rfl
  rw [hbb] at hset
  refine ⟨_, hpush, ?_, ?_, ?_⟩
  · dsimp only
    rw [List.length_set, hext, List.length_append]
    omega
  · intro hlen
    have hinv := push_back_inv h hpush hlen
    refine ⟨hinv, ?_⟩
    rw [hinv.fill_eq (by dsimp only; rw [List.length_set]; exact h4)]
    dsimp only
    omega
  · intro q hq
    have hfill_le : fill w a ≤ a.memory.length * b := by
      rcases h.idx with g1 | ⟨g1, _, _⟩
      · rw [h.fill_eq g1]
        have : (a.index + 1) * b ≤ a.memory.length * b := Nat.mul_le_mul_right b g1
        rw [Nat.add_mul, Nat.one_mul] at this
        omega
      · unfold fill; rw [if_pos g1]; exact Nat.zero_le _
    have hqb : q / b < a.memory.length :=
      (Nat.div_lt_iff_lt_mul (by omega)).mpr (by omega)
    unfold Get
    dsimp only
    rw [h.bs, if_neg (by omega), if_neg (by omega),
      getSlot_set_ne hset (flat_ne (by omega)), hext, getSlot_append _ hqb]

theorem pop_back_fill {T : Type} [Inhabited T] {w b : Nat} {a : Allocator T}
    (h : ArenaInv w b a) (hpos : 0 < fill w a) :
    ∃ a1, pop_back w a = .ok a1 ∧ a1.memory.length = a.memory.length ∧
      ArenaInv w b a1 ∧ fill w a1 + 1 = fill w a ∧
      (∀ q, q + 1 < fill w a → Get a1 q = Get a q) := by
  have hbp := h.bpos
  have hbw := h.blt
  have hrem := h.rem
  have hlen := h.len
  have hi : a.index < a.memory.length := by
    rcases h.idx with g1 | ⟨g1, _, _⟩
    · exact g1
    · unfold fill at hpos; rw [if_pos g1] at hpos; exact absurd hpos (Nat.lt_irrefl 0)
  have hfill := h.fill_eq hi
  have hback : (back w a).blockSize = b ∧ (back w a).memory = a.memory ∧
      (back w a).index < a.memory.length ∧ (back w a).remains < b ∧
      (back w a).index * b + (b - (back w a).remains) = fill w a := by
    unfold back
    rw [h.bs]
    split
    · next heq =>
      have hidx : 1 ≤ a.index := by
        rcases Nat.eq_zero_or_pos a.index with h0 | h0
        · rw [hfill, h0, heq] at hpos; simp at hpos
        · exact h0
      dsimp only
      rw [subW_of_le hidx (by omega)]
      refine ⟨rfl, rfl, by omega, by omega, ?_⟩
      rw [hfill, heq, Nat.sub_self, Nat.sub_zero, Nat.add_zero]
      have : (a.index - 1 + 1) * b = a.index * b := by rw [Nat.sub_add_cancel hidx]
      rw [Nat.add_mul, Nat.one_mul] at this
      exact this
    · next hne => exact ⟨h.bs, rfl, hi, by omega, hfill.symm⟩
  obtain ⟨b1, b2, b3, b4, b5⟩ := hback
  have hadd : addW w (back w a).remains 1 = (back w a).remains + 1 :=
    addW_of_lt (by omega)
  have hsub : subW w b ((back w a).remains + 1) = b - ((back w a).remains + 1) :=
    subW_of_le (by omega) hbw
  have hst : Store b a.memory.length (back w a).memory := by rw [b2]; exact h.store
  obtain ⟨m1, hm1, _⟩ := setSlot_ok hst b3
    (show b - ((back w a).remains + 1) < b by omega) (default : T)
  have hpop : pop_back w a = .ok ⟨b, (back w a).index, (back w a).remains + 1, m1⟩ := by
    rw [pop_back_eq, b1, hadd, hsub]
    unfold resetSlot
    rw [hm1]
  have hinv := pop_back_inv h hpop
  have hl1 : m1.length = a.memory.length := by rw [setSlot_length hm1, b2]
  refine ⟨_, hpop, hl1, hinv, ?_, ?_⟩
  · rw [hinv.fill_eq (by dsimp only; rw [hl1]; exact b3)]
    dsimp only
    omega
  · intro q hq
    unfold Get
    dsimp only
    rw [h.bs, if_neg (by omega), if_neg (by omega),
      getSlot_set_ne hm1 (flat_ne (by omega)), b2]

/-! ## Appends followed by removals -/

theorem Session.step_push_back {T : Type} [Inhabited T] {w : Nat} {t : T}
    {a a1 : Allocator T} (cps : List AllocatorState) (h : push_back w t a = .ok a1) :
    Session.step w (Op.push_back t) ⟨a, cps⟩ = .ok ⟨a1, cps⟩ := by
  simp only [Session.step, h]

theorem Session.step_pop_back {T : Type} [Inhabited T] {w : Nat}
    {a a1 : Allocator T} (cps : List AllocatorState) (h : pop_back w a = .ok a1) :
    Session.step w (Op.pop_back : Op T) ⟨a, cps⟩ = .ok ⟨a1, cps⟩ := by
  simp only [Session.step, h]

theorem Session.run_cons_ok {T : Type} [Inhabited T] {w : Nat} {op : Op T}
    {s s1 : Session T} (rest : List (Op T)) (h : Session.step w op s = .ok s1) :
    Session.run w (op :: rest) s = Session.run w rest s1 := by
  simp only [Session.run, h]

theorem push_pop_restore {T : Type} [Inhabited T] {w b : Nat} (cps : List AllocatorState)
    (vs : List T) :
    ∀ (a : Allocator T), ArenaInv w b a → a.memory.length + vs.length < 2 ^ w →
      ∃ a2, Session.run w (vs.map Op.push_back ++ List.replicate vs.length Op.pop_back)
          ⟨a, cps⟩ = .ok ⟨a2, cps⟩ ∧
        ArenaInv w b a2 ∧ fill w a2 = fill w a ∧
        (∀ q, q < fill w a → Get a2 q = Get a q) ∧
        a2.memory.length ≤ a.memory.length + vs.length := by
  induction vs with
  | nil =>
    intro a h _
    exact ⟨a, rfl, h, rfl, fun _ _ => rfl, Nat.le_refl _⟩
  | cons v rest ih =>
    intro a h hfit
    rw [List.length_cons] at hfit
    obtain ⟨a1, hpush, hl1, hinv1, hget1⟩ := push_back_fill h v
    obtain ⟨hinv1, hfill1⟩ := hinv1 (by omega)
    obtain ⟨a2, hrun, hinv2, hfill2, hget2, hl2⟩ := ih a1 hinv1 (by omega)
    obtain ⟨a3, hpop, hl3, hinv3, hfill3, hget3⟩ :=
      pop_back_fill hinv2 (by rw [hfill2, hfill1]; exact Nat.succ_pos _)
    refine ⟨a3, ?_, hinv3, by omega, ?_, ?_⟩
    · have hops : (v :: rest).map Op.push_back
            ++ List.replicate (v :: rest).length Op.pop_back
          = Op.push_back v :: ((rest.map Op.push_back
              ++ List.replicate rest.length Op.pop_back) ++ [Op.pop_back]) := by
        rw [List.map_cons, List.length_cons, List.replicate_succ', List.cons_append,
          List.append_assoc]
      rw [hops]
      rw [Session.run_cons_ok _ (Session.step_push_back cps hpush), Session.run_append,
        hrun]
      dsimp only
      rw [Session.run_cons_ok _ (Session.step_pop_back cps hpop)]
      rfl
    · intro q hq
      rw [hget3 q (by omega), hget2 q (by omega), hget1 q hq]
    · rw [List.length_cons]; omega

/-! ## Appends as a vector -/

theorem getSlot_set_self {T : Type} {m m1 : List (List T)} {i j : Nat} {v : T}
    (h : setSlot m i j v = .ok m1) : getSlot m1 i j = .ok v := by
  have hi := setSlot_bound h
  unfold setSlot at h
  rw [List.getElem?_eq_getElem hi] at h
  dsimp only at h
  by_cases hj : j < (m[i]).length
  · rw [if_pos hj] at h
    cases h
    unfold getSlot
    rw [List.getElem?_set_self hi]
    dsimp only
    rw [List.getElem?_set_self hj]
  · rw [if_neg hj] at h; cases h

theorem flat_div_mod {b i j : Nat} (hj : j < b) :
    (i * b + j) / b = i ∧ (i * b + j) % b = j := by
  have hb : 0 < b := by omega
  constructor
  · rw [Nat.mul_comm, Nat.mul_add_div hb, Nat.div_eq_of_lt hj, Nat.add_zero]
  · rw [Nat.mul_comm, Nat.mul_add_mod, Nat.mod_eq_of_lt hj]

theorem push_back_get {T : Type} [Inhabited T] {w b : Nat} {a a1 : Allocator T} {t : T}
    (h : ArenaInv w b a) (hp : push_back w t a = .ok a1) :
    Get a1 (fill w a) = .ok t := by
  have hbp := h.bpos
  obtain ⟨h1, h2, h3, h4, h5, _⟩ := serve_spec (T := T) h Nat.one_pos hbp
  obtain ⟨f1, f2⟩ := serve_fill (T := T) h Nat.one_pos
  have hpos : (serve w 1 a).index * b + (b - (serve w 1 a).remains) = fill w a := by
    rcases Nat.lt_or_ge a.remains 1 with hlt | hge
    · have := f2 hlt; omega
    · exact f1 hge
  have hoff : b - (serve w 1 a).remains < b := by omega
  obtain ⟨blk, hblk, hpush⟩ := push_back_spec h t
  obtain ⟨blk1, hblk1, hset⟩ := setSlot_eq h5 h4 hoff t
  have hbb : blk1 = blk := by
    rw [hblk] at hblk1; cases hblk1; rfl
  rw [hbb] at hset
  rw [hpush] at hp
  cases hp
  obtain ⟨d1, d2⟩ := flat_div_mod (i := (serve w 1 a).index) hoff
  unfold Get
  dsimp only
  rw [if_neg (by omega), ← hpos, d1, d2]
  exact getSlot_set_self hset

theorem pushes_spec {T : Type} [Inhabited T] {w b : Nat} (cps : List AllocatorState)
    (vs : List T) :
    ∀ (a : Allocator T), ArenaInv w b a → a.memory.length + vs.length < 2 ^ w →
      ∃ a1, Session.run w (vs.map Op.push_back) ⟨a, cps⟩ = .ok ⟨a1, cps⟩ ∧
        ArenaInv w b a1 ∧ fill w a1 = fill w a + vs.length ∧
        (∀ q, q < fill w a → Get a1 q = Get a q) ∧
        (∀ i v, vs[i]? = some v → Get a1 (fill w a + i) = .ok v) ∧
        a1.memory.length ≤ a.memory.length + vs.length := by
  induction vs with
  | nil =>
    intro a h _
    refine ⟨a, rfl, h, rfl, fun _ _ => rfl, ?_, Nat.le_refl _⟩
    intro i v hv
    simp at hv
  | cons v rest ih =>
    intro a h hfit
    rw [List.length_cons] at hfit
    obtain ⟨a1, hpush, hl1, hinv1, hget1⟩ := push_back_fill h v
    obtain ⟨hinv1, hfill1⟩ := hinv1 (by omega)
    have hnew := push_back_get h hpush
    obtain ⟨a2, hrun, hinv2, hfill2, hget2, hvals2, hl2⟩ := ih a1 hinv1 (by omega)
    refine ⟨a2, ?_, hinv2, ?_, ?_, ?_, ?_⟩
    · rw [List.map_cons, Session.run_cons_ok _ (Session.step_push_back cps hpush)]
      exact hrun
    · rw [List.length_cons]; omega
    · intro q hq
      rw [hget2 q (by omega), hget1 q hq]
    · intro i x hx
      cases i with
      | zero =>
        simp only [List.getElem?_cons_zero, Option.some.injEq] at hx
        rw [Nat.add_zero, hget2 _ (by omega), hnew, hx]
      | succ i1 =>
        simp only [List.getElem?_cons_succ] at hx
        have := hvals2 i1 x hx
        rw [hfill1] at this
        rw [← this]
        congr 1
        omega
    · rw [List.length_cons]; omega

/-! ## The full reset of `DeleteAll` -/

theorem forLoop_count_inv {σ : Type} (P : Nat → σ → Prop)
    (body : Nat → σ → Except Fault σ) (hi : Nat)
    (hbody : ∀ j s, j < hi → P j s → ∃ s1, body j s = .ok s1 ∧ P (j + 1) s1) :
    ∀ (fuel lo : Nat) (s : σ), lo ≤ hi → hi - lo ≤ fuel → P lo s →
      ∃ s1, forLoop fuel (fun j => decide (j < hi)) (fun j => j + 1) body lo s = .ok s1
        ∧ P hi s1 := by
  intro fuel
  induction fuel with
  | zero =>
    intro lo s hle hf hP
    have hlo : lo = hi := by omega
    refine ⟨s, ?_, by rw [← hlo]; exact hP⟩
    unfold forLoop
    have : ¬ lo < hi := by omega
    simp [this]
  | succ n ih =>
    intro lo s hle hf hP
    unfold forLoop
    by_cases hlt : lo < hi
    · obtain ⟨s1, h1, hP1⟩ := hbody lo s hlt hP
      obtain ⟨s2, h2, hP2⟩ := ih (lo + 1) s1 (by omega) (by omega) hP1
      refine ⟨s2, ?_, hP2⟩
      simp [hlt, h1, h2]
    · have hlo : lo = hi := by omega
      exact ⟨s, by simp [hlt], by rw [← hlo]; exact hP⟩

theorem resetFrom_zero_spec {T : Type} [Inhabited T] {b n : Nat} (fuel : Nat) {i : Nat}
    {m : List (List T)} (hm : Store b n m) (hi : i < n) (hf : b ≤ fuel) :
    ∃ m1, resetFrom fuel b i 0 m = .ok m1 ∧ Store b n m1 ∧
      (∀ j, j < b → getSlot m1 i j = .ok default) ∧
      (∀ i1 j1, i1 ≠ i → getSlot m1 i1 j1 = getSlot m i1 j1) := by
  have key := forLoop_count_inv
    (fun j (x : List (List T)) => Store b n x ∧
      (∀ j1, j1 < j → getSlot x i j1 = .ok default) ∧
      (∀ i1 j1, i1 ≠ i → getSlot x i1 j1 = getSlot m i1 j1))
    (fun j x => resetSlot x i j) b
    (by
      intro j x hj hx
      obtain ⟨hs, hd, hk⟩ := hx
      obtain ⟨x1, hx1, hs1⟩ := setSlot_ok hs hi hj (default : T)
      refine ⟨x1, hx1, hs1, ?_, ?_⟩
      · intro j1 hj1
        by_cases he : j1 = j
        · rw [he]; exact getSlot_set_self hx1
        · rw [getSlot_set_ne hx1 (Or.inr he)]
          exact hd j1 (by omega)
      · intro i1 j1 hne
        rw [getSlot_set_ne hx1 (Or.inl hne)]
        exact hk i1 j1 hne)
    fuel 0 m (Nat.zero_le _) (by omega)
    ⟨hm, fun j1 hj1 => absurd hj1 (Nat.not_lt_zero _), fun _ _ _ => rfl⟩
  obtain ⟨m1, h1, h2, h3, h4⟩ := key
  exact ⟨m1, h1, h2, h3, h4⟩

theorem fullReset_spec {T : Type} [Inhabited T] {b n : Nat} (fuel : Nat)
    {m : List (List T)} (hm : Store b n m) (hf1 : b ≤ fuel) (hf2 : n ≤ fuel) :
    ∃ m1, forLoop fuel (fun i => decide (i < n)) (fun i => i + 1)
        (fun i x => resetFrom fuel b i 0 x) 0 m = .ok m1 ∧ Store b n m1 ∧
      (∀ i j, i < n → j < b → getSlot m1 i j = .ok default) := by
  have key := forLoop_count_inv
    (fun i (x : List (List T)) => Store b n x ∧
      (∀ i1 j, i1 < i → j < b → getSlot x i1 j = .ok default))
    (fun i x => resetFrom fuel b i 0 x) n
    (by
      intro i x hi hx
      obtain ⟨hs, hd⟩ := hx
      obtain ⟨x1, hx1, hs1, hd1, hk1⟩ := resetFrom_zero_spec fuel hs hi hf1
      refine ⟨x1, hx1, hs1, ?_⟩
      intro i1 j hi1 hj
      by_cases he : i1 = i
      · rw [he]; exact hd1 j hj
      · rw [hk1 i1 j he]
        exact hd i1 j (by omega) hj)
    fuel 0 m (Nat.zero_le _) (by omega)
    ⟨hm, fun i1 j hi1 _ => absurd hi1 (Nat.not_lt_zero _)⟩
  obtain ⟨m1, h1, h2, h3⟩ := key
  exact ⟨m1, h1, h2, h3⟩

theorem DeleteAll_spec {T : Type} [Inhabited T] {w b : Nat} (fuel : Nat)
    {a : Allocator T} (h : ArenaInv w b a) (hf1 : b ≤ fuel)
    (hf2 : a.memory.length ≤ fuel) :
    ∃ a1, DeleteAll fuel a = .ok a1 ∧ a1.blockSize = b ∧
      a1.memory.length = a.memory.length ∧ size w a1 = 0 ∧
      (∀ i j, i < a.memory.length → j < b → getSlot a1.memory i j = .ok default) ∧
      (a.memory ≠ [] → a1.index = 0 ∧ a1.remains = b) ∧
      (a.memory = [] → a1 = a) := by
  by_cases h0 : a.memory.length ≠ 0
  · obtain ⟨m1, e1, s1, d1⟩ := fullReset_spec fuel h.store hf1 hf2
    have hd : DeleteAll fuel a = .ok ⟨b, 0, b, m1⟩ := by
      unfold DeleteAll
      rw [if_pos h0, h.bs, e1]
    refine ⟨_, hd, rfl, s1.1, ?_, d1, fun _ => ⟨rfl, rfl⟩, ?_⟩
    · rw [size_eq_mod (by dsimp only; exact Nat.le_refl _) (by dsimp only; exact h.blt)]
      dsimp only
      rw [Nat.zero_mul, Nat.sub_self, Nat.zero_mod]
    · intro he
      rw [he] at h0
      exact absurd rfl h0
  · have hd : DeleteAll fuel a = .ok a := by
      unfold DeleteAll
      rw [if_neg h0]
    have hlen : a.memory.length = 0 := by omega
    refine ⟨a, hd, h.bs, rfl, ?_, ?_, ?_, fun _ => rfl⟩
    · rw [h.size_eq_fill]
      rcases h.idx with g1 | ⟨g1, _, _⟩
      · omega
      · unfold fill
        rw [if_pos g1, Nat.zero_mod]
    · intro i j hi
      omega
    · intro hne
      exact absurd (List.length_eq_zero.mp hlen) hne

/-! ## Block size zero -/

theorem setSlot_empty_blocks {T : Type} {m : List (List T)} (i j : Nat) (v : T)
    (hm : ∀ blk ∈ m, blk.length = 0) : setSlot m i j v = .error Fault.outOfBounds := by
  unfold setSlot
  split
  · rfl
  · next blk hblk =>
    have := hm blk (List.getElem?_mem hblk)
    rw [if_neg (by omega)]

theorem alloc_step_zero {T : Type} [Inhabited T] {w : Nat} {op : Op T} {s s1 : Session T}
    (hbs : s.arena.blockSize = 0) (hmem : s.arena.memory = []) (hrem : s.arena.remains = 0)
    (hop : op.isAlloc = true) (h : Session.step w op s = .ok s1) : s1 = s := by
  cases op with
  | New k =>
    simp only [Session.step] at h
    rw [New_eq] at h
    by_cases hk : k = 0
    · rw [if_pos hk] at h
      cases h
      rfl
    · rw [if_neg hk, if_neg (by rw [hbs]; omega)] at h
      cases h
  | push_back t =>
    simp only [Session.step] at h
    rw [push_back_eq] at h
    have hblocks : ∀ blk ∈ (serve w 1 s.arena).memory, blk.length = 0 := by
      unfold serve advance
      rw [hrem, hmem, hbs, if_pos Nat.one_pos]
      dsimp only
      intro blk hblk
      split at hblk
      · simp at hblk
        rw [hblk]
        rfl
      · cases hblk
    rw [setSlot_empty_blocks _ _ _ hblocks] at h
    cases h
  | pop_back => cases hop
  | DeleteAll fuel => cases hop
  | getState => cases hop
  | rollBack fuel n => cases hop
  | write i j t => cases hop

theorem alloc_run_zero {T : Type} [Inhabited T] {w : Nat} (ops : List (Op T)) :
    ∀ {s s1 : Session T}, s.arena.blockSize = 0 → s.arena.memory = [] →
      s.arena.remains = 0 → (∀ op ∈ ops, op.isAlloc = true) →
      Session.run w ops s = .ok s1 → s1 = s := by
  induction ops with
  | nil =>
    intro s s1 _ _ _ _ h
    simp only [Session.run] at h
    cases h
    rfl
  | cons op rest ih =>
    intro s s1 hbs hmem hrem hops h
    simp only [Session.run] at h
    split at h
    · next s2 h2 =>
      have e := alloc_step_zero hbs hmem hrem (hops op (List.mem_cons_self _ _)) h2
      rw [e] at h
      exact ih hbs hmem hrem (fun o ho => hops o (List.mem_cons_of_mem _ ho)) h
    · cases h

/-! ## The checkpoint of a freshly configured arena -/

theorem rollBack_sentinel_noop {T : Type} [Inhabited T] {w b : Nat} {a : Allocator T}
    (h : ArenaInv w b a) (a0 : Allocator T) (fuel : Nat) :
    rollBack fuel (getState (SetBlockSize w b a0)) a = .ok a := by
  have hlen := h.len
  apply rollBack_noop
  have hc : (getState (SetBlockSize w b a0)).index = 2 ^ w - 1 := subW_zero_one w
  have hr : (getState (SetBlockSize w b a0)).remains = 0 := rfl
  rw [hc, hr]
  intro hg
  rcases h.idx with g1 | ⟨g1, _, g3⟩
  · rcases hg with h1 | ⟨h1, _⟩ <;> omega
  · rcases hg with h1 | ⟨_, h1⟩ <;> omega

/-! ## Growth of the block store -/

theorem atLastBlock_iff {T : Type} {w : Nat} {a : Allocator T}
    (hlen : a.memory.length < 2 ^ w) :
    a.index = subW w a.memory.length 1 ↔ atLastBlock w a := by
  unfold atLastBlock
  rcases Nat.eq_zero_or_pos a.memory.length with h0 | hpos
  · rw [h0, subW_zero_one]
    constructor
    · intro h; exact Or.inr ⟨rfl, h⟩
    · intro h
      rcases h with ⟨h1, _⟩ | ⟨_, h2⟩
      · omega
      · exact h2
  · rw [subW_of_le hpos hlen]
    constructor
    · intro h; exact Or.inl ⟨hpos, by omega⟩
    · intro h
      rcases h with ⟨_, h2⟩ | ⟨h1, _⟩ <;> omega

theorem serve_length_exact {T : Type} [Inhabited T] {w : Nat} (k : Nat) {a : Allocator T}
    (hlen : a.memory.length < 2 ^ w) :
    ((a.remains < k ∧ atLastBlock w a) →
      (serve w k a).memory.length = a.memory.length + 1) ∧
    (¬ (a.remains < k ∧ atLastBlock w a) →
      (serve w k a).memory.length = a.memory.length) := by
  have hiff := atLastBlock_iff hlen
  unfold serve advance
  constructor
  · intro h
    rw [if_pos h.1]
    dsimp only
    rw [if_pos (hiff.mpr h.2), List.length_append, List.length_singleton]
  · intro h
    by_cases hr : a.remains < k
    · rw [if_pos hr]
      dsimp only
      rw [if_neg (fun hx => h ⟨hr, hiff.mp hx⟩)]
    · rw [if_neg hr]

theorem pop_back_slot {T : Type} [Inhabited T] {w b : Nat} {a : Allocator T}
    (h : ArenaInv w b a) (hpos : 0 < fill w a) :
    ∃ m1, pop_back w a = .ok ⟨b, (back w a).index, (back w a).remains + 1, m1⟩ ∧
      setSlot a.memory (back w a).index (b - ((back w a).remains + 1)) default = .ok m1 ∧
      (back w a).index < a.memory.length ∧ (back w a).remains < b ∧
      (a.remains = b →
        1 ≤ a.index ∧ (back w a).index = a.index - 1 ∧ (back w a).remains = 0) ∧
      (a.remains ≠ b → (back w a).index = a.index ∧ (back w a).remains = a.remains) := by
  have hbp := h.bpos
  have hbw := h.blt
  have hrem := h.rem
  have hlen := h.len
  have hi : a.index < a.memory.length := by
    rcases h.idx with g1 | ⟨g1, _, _⟩
    · exact g1
    · unfold fill at hpos; rw [if_pos g1] at hpos; exact absurd hpos (Nat.lt_irrefl 0)
  have hfill := h.fill_eq hi
  have hback : (back w a).blockSize = b ∧ (back w a).memory = a.memory ∧
      (back w a).index < a.memory.length ∧ (back w a).remains < b ∧
      (a.remains = b →
        1 ≤ a.index ∧ (back w a).index = a.index - 1 ∧ (back w a).remains = 0) ∧
      (a.remains ≠ b → (back w a).index = a.index ∧ (back w a).remains = a.remains) := by
    unfold back
    rw [h.bs]
    by_cases heq : a.remains = b
    · have hidx : 1 ≤ a.index := by
        rcases Nat.eq_zero_or_pos a.index with h0 | h0
        · rw [hfill, h0, heq] at hpos; simp at hpos
        · exact h0
      rw [if_pos heq]
      dsimp only
      rw [subW_of_le hidx (by omega)]
      exact ⟨rfl, rfl, by omega, by omega, fun _ => ⟨hidx, rfl, rfl⟩,
        fun hne => absurd heq hne⟩
    · rw [if_neg heq]
      exact ⟨h.bs, rfl, hi, by omega, fun he => absurd he heq, fun _ => ⟨rfl, rfl⟩⟩
  obtain ⟨b1, b2, b3, b4, b5, b6⟩ := hback
  have hadd : addW w (back w a).remains 1 = (back w a).remains + 1 :=
    addW_of_lt (by omega)
  have hsub : subW w b ((back w a).remains + 1) = b - ((back w a).remains + 1) :=
    subW_of_le (by omega) hbw
  obtain ⟨m1, hm1, _⟩ := setSlot_ok h.store b3
    (show b - ((back w a).remains + 1) < b by omega) (default : T)
  refine ⟨m1, ?_, hm1, b3, b4, b5, b6⟩
  rw [pop_back_eq, b1, hadd, hsub, b2]
  unfold resetSlot
  rw [hm1]

theorem pred_mod {f n : Nat} (h : 0 < f % n) : (f - 1) % n + 1 = f % n := by
  rcases Nat.eq_zero_or_pos n with h0 | hn
  · subst h0
    simp only [Nat.mod_zero] at h ⊢
    omega
  · have hlt : f % n < n := Nat.mod_lt _ hn
    have hdm := Nat.div_add_mod f n
    have e : f - 1 = n * (f / n) + (f % n - 1) := by omega
    rw [e, Nat.mul_add_mod, Nat.mod_eq_of_lt (by omega)]
    omega

theorem New_memory {T : Type} [Inhabited T] {w k : Nat} {a a1 : Allocator T}
    {r : Option Run} (h : New w k a = .ok (r, a1)) :
    a1.memory = (serve w k a).memory := by
  rw [New_eq] at h
  by_cases hk : k = 0
  · rw [if_pos hk] at h
    cases h
    unfold serve
    rw [if_neg (by omega)]
  · rw [if_neg hk] at h
    by_cases hb : k ≤ a.blockSize
    · rw [if_pos hb] at h
      by_cases hi : (serve w k a).index < (serve w k a).memory.length
      · rw [if_pos hi] at h; cases h; rfl
      · rw [if_neg hi] at h; cases h
    · rw [if_neg hb] at h; cases h

theorem push_back_memory_length {T : Type} [Inhabited T] {w : Nat} {t : T}
    {a a1 : Allocator T} (h : push_back w t a = .ok a1) :
    a1.memory.length = (serve w 1 a).memory.length := by
  rw [push_back_eq] at h
  split at h
  · cases h
  · next m hm =>
    cases h
    exact setSlot_length hm

/-! ## Runs handed out by a growing session -/

theorem grow_step {T : Type} [Inhabited T] {w b : Nat} {op : Op T} {s : Session T}
    (h : ArenaInv w b s.arena) (hlen : s.arena.memory.length + 1 < 2 ^ w)
    (hop : op.grows b = true) :
    ∃ s1, Session.step w op s = .ok s1 ∧ ArenaInv w b s1.arena ∧
      s.arena.memory.length ≤ s1.arena.memory.length ∧
      s1.arena.memory.length ≤ s.arena.memory.length + 1 ∧
      fill w s.arena ≤ fill w s1.arena ∧
      (Op.handout w op s).map Handout.asked = op.asked.toList ∧
      ∀ x ∈ Op.handout w op s,
        fill w s.arena ≤ x.run.block * b + x.run.offset ∧
        x.run.block * b + x.run.offset + x.run.len = fill w s1.arena ∧
        x.run.len = x.asked ∧ x.run.block = x.after.index ∧
        x.run.offset + x.run.len + x.after.remains = b ∧
        x.run.block < s1.arena.memory.length ∧ x.run.offset + x.run.len ≤ b := by
  cases op with
  | New k =>
    have hk : 1 ≤ k ∧ k ≤ b := by
      simpa [Op.grows] using hop
    obtain ⟨_, h2, h3, h4, _, ext, hext, hextl⟩ := serve_spec (T := T) h hk.1 hk.2
    have hnew := New_spec h hk.1 hk.2
    have hl1 : (serve w k s.arena).memory.length ≤ s.arena.memory.length + 1 := by
      rw [hext, List.length_append]; omega
    obtain ⟨run, hrun, hinv1, hr1, hr2, hr3, hr4, hr5⟩ :=
      New_run h hk.1 hk.2 hnew (by dsimp only; omega)
    cases hrun
    dsimp only at hr1 hr2 hr3 hr4 hr5
    refine ⟨⟨⟨b, (serve w k s.arena).index, (serve w k s.arena).remains - k,
      (serve w k s.arena).memory⟩, s.checkpoints⟩, ?_, hinv1, serve_length w k s.arena,
      hl1, ?_, ?_, ?_⟩
    · simp only [Session.step, hnew]
    · dsimp only; omega
    · simp only [Op.handout, hnew, Op.asked, List.map_cons, List.map_nil, Option.toList]
    · intro x hx
      simp only [Op.handout, hnew, List.mem_singleton] at hx
      rw [hx]
      dsimp only [Allocator.getState]
      exact ⟨hr1, hr2, rfl, rfl, by omega, hr4, hr3⟩
  | push_back t =>
    obtain ⟨a1, hpush, hl1, hinv1, _⟩ := push_back_fill h t
    have hlen1 : a1.memory.length < 2 ^ w := by omega
    obtain ⟨hinv1, hfill1⟩ := hinv1 hlen1
    refine ⟨⟨a1, s.checkpoints⟩, Session.step_push_back s.checkpoints hpush, hinv1,
      push_back_length hpush, hl1, by dsimp only; omega, rfl, ?_⟩
    intro x hx
    simp only [Op.handout, List.not_mem_nil] at hx
  | getState =>
    refine ⟨⟨s.arena, s.checkpoints ++ [s.arena.getState]⟩, rfl, h, Nat.le_refl _,
      Nat.le_succ _, Nat.le_refl _, rfl, ?_⟩
    intro x hx
    simp only [Op.handout, List.not_mem_nil] at hx
  | pop_back => cases hop
  | DeleteAll fuel => cases hop
  | rollBack fuel n => cases hop
  | write i j t => cases hop

theorem trace_spec {T : Type} [Inhabited T] {w b : Nat} (ops : List (Op T)) :
    ∀ (s : Session T), ArenaInv w b s.arena →
      s.arena.memory.length + ops.length < 2 ^ w → (∀ op ∈ ops, op.grows b = true) →
      ∃ hs s1, Session.trace w ops s = .ok (hs, s1) ∧ Session.run w ops s = .ok s1 ∧
        ArenaInv w b s1.arena ∧
        s.arena.memory.length ≤ s1.arena.memory.length ∧
        s1.arena.memory.length ≤ s.arena.memory.length + ops.length ∧
        fill w s.arena ≤ fill w s1.arena ∧
        hs.map Handout.asked = ops.filterMap Op.asked ∧
        (∀ x ∈ hs,
          fill w s.arena ≤ x.run.block * b + x.run.offset ∧
          x.run.len = x.asked ∧ x.run.block = x.after.index ∧
          x.run.offset + x.run.len + x.after.remains = b ∧
          x.run.block < s1.arena.memory.length ∧ x.run.offset + x.run.len ≤ b) ∧
        hs.Pairwise (fun x y => Run.disjoint x.run y.run) := by
  induction ops with
  | nil =>
    intro s h _ _
    exact ⟨[], s, rfl, rfl, h, Nat.le_refl _, Nat.le_refl _, Nat.le_refl _, rfl,
      (fun x hx => by cases hx), List.Pairwise.nil⟩
  | cons op rest ih =>
    intro s h hfit hops
    rw [List.length_cons] at hfit
    obtain ⟨s1, hstep, hinv1, hm1, hg1, hf1, hask1, hx1⟩ :=
      grow_step h (by omega) (hops op (List.mem_cons_self _ _))
    obtain ⟨hs, s2, htr, hrun, hinv2, hm2, hg2, hf2, hask2, hx2, hpw⟩ :=
      ih s1 hinv1 (by omega) (fun o ho => hops o (List.mem_cons_of_mem _ ho))
    refine ⟨Op.handout w op s ++ hs, s2, ?_, ?_, hinv2, by omega, ?_, by omega, ?_, ?_, ?_⟩
    · simp only [Session.trace, hstep, htr]
    · rw [Session.run_cons_ok _ hstep]; exact hrun
    · rw [List.length_cons]; omega
    · rw [List.map_append, hask1, hask2]
      cases hq : op.asked with
      | none => simp [List.filterMap_cons, hq]
      | some k => simp [List.filterMap_cons, hq]
    · intro x hx
      rcases List.mem_append.mp hx with hx | hx
      · obtain ⟨g1, _, g3, g4, g5, g6, g7⟩ := hx1 x hx
        exact ⟨g1, g3, g4, g5, Nat.lt_of_lt_of_le g6 hm2, g7⟩
      · obtain ⟨g1, g3, g4, g5, g6, g7⟩ := hx2 x hx
        exact ⟨by omega, g3, g4, g5, g6, g7⟩
    · rw [List.pairwise_append]
      refine ⟨?_, hpw, ?_⟩
      · cases op with
        | New k =>
          unfold Op.handout
          dsimp only
          split
          · exact List.pairwise_singleton _ _
          · exact List.Pairwise.nil
        | push_back t => exact List.Pairwise.nil
        | pop_back => exact List.Pairwise.nil
        | DeleteAll fuel => exact List.Pairwise.nil
        | getState => exact List.Pairwise.nil
        | rollBack fuel n => exact List.Pairwise.nil
        | write i j t => exact List.Pairwise.nil
      · intro x hx y hy
        obtain ⟨_, e2, _, _, _, _, _⟩ := hx1 x hx
        obtain ⟨g1, _, _, _, _, _⟩ := hx2 y hy
        by_cases hblk : x.run.block = y.run.block
        · right; left
          have e : x.run.block * b = y.run.block * b := by rw [hblk]
          omega
        · exact Or.inl hblk

theorem block_count_of_return {T : Type} [Inhabited T] (w : Nat) (a : Allocator T)
    (hlen : a.memory.length < 2 ^ w) :
    (∀ k r a1, New w k a = .ok (r, a1) → BlockGrowth w k a a1) ∧
    (∀ t a1, push_back w t a = .ok a1 → BlockGrowth w 1 a a1) ∧
    (∀ a1, pop_back w a = .ok a1 → a1.memory.length = a.memory.length) ∧
    (∀ fuel a1, DeleteAll fuel a = .ok a1 → a1.memory.length = a.memory.length) ∧
    (∀ fuel c a1, rollBack fuel c a = .ok a1 → a1.memory.length = a.memory.length) ∧
    (∀ cps, Session.step w Op.getState ⟨a, cps⟩ = .ok ⟨a, cps ++ [a.getState]⟩) := by
  unfold BlockGrowth
  refine ⟨?_, ?_, ?_, ?_, ?_, ?_⟩
  · intro k r a1 h
    obtain ⟨e1, e2⟩ := serve_length_exact (T := T) k hlen
    rw [New_memory h]
    exact ⟨serve_length w k a, e1, e2⟩
  · intro t a1 h
    obtain ⟨e1, e2⟩ := serve_length_exact (T := T) 1 hlen
    rw [push_back_memory_length h]
    exact ⟨serve_length w 1 a, e1, e2⟩
  · intro a1 h
    exact pop_back_length h
  · intro fuel a1 h
    exact DeleteAll_length h
  · intro fuel c a1 h
    exact rollBack_length h
  · intro cps
    rfl

/-! ## Claims -/

/-- C1: in an arena reachable after `SetBlockSize(b)` with `b >= 1`, `New(k)` with
`0 < k <= b` returns a run, and `size()` grows (in `SIZE_T` arithmetic) by exactly `k`
when at least `k` slots remain in the current block, and by exactly `k + r` when only
`r < k` slots remain, the sentinel state with `r = 0` included. -/
theorem New_size_change {T : Type} [Inhabited T] (w b k : Nat) (a : Allocator T)
    (hb : 1 ≤ b) (hbw : b < 2 ^ w) (hr : Reachable w b a) (hk : 0 < k) (hkb : k ≤ b) :
    ∃ run a1, New w k a = .ok (some run, a1) ∧
      (k ≤ a.remains → size w a1 = (size w a + k) % 2 ^ w) ∧
      (a.remains < k → size w a1 = (size w a + (k + a.remains)) % 2 ^ w) := by
  have h := hr.inv hb hbw
  obtain ⟨h1, h2, h3, h4, h5, _⟩ := serve_spec (T := T) h hk hkb
  refine ⟨_, _, New_spec h hk hkb, ?_, ?_⟩
  · intro hle
    have hs : serve w k a = a := by
      unfold serve; rw [if_neg (by omega)]
    rw [size_eq_mod (by dsimp only; omega) (by dsimp only; exact hbw), h.size_eq]
    dsimp only
    rw [hs, Nat.mod_add_mod]
    have hrem := h.rem
    congr 1
    omega
  · intro hlt
    have hs : serve w k a = advance w a := by
      unfold serve; rw [if_pos hlt]
    obtain ⟨_, g2, _, _, g5, _⟩ := advance_spec (T := T) h
    rw [size_eq_mod (by dsimp only; omega) (by dsimp only; exact hbw), h.size_eq]
    dsimp only
    rw [hs, g2, g5, Nat.mod_add_mod]
    have hrem := h.rem
    have e1 : b - (b - k) = k := by omega
    have e2 : a.index * b + (b - a.remains) + (k + a.remains) = (a.index + 1) * b + k := by
      rw [Nat.add_mul, Nat.one_mul]; omega
    rw [e1, e2]
    exact Nat.ModEq.add_right k (Nat.ModEq.mul_right b (Nat.mod_modEq _ _))

theorem New_size_change_witness :
    (1 ≤ 4 ∧ 4 < 2 ^ 64 ∧ Reachable 64 4 (⟨4, 0, 1, [[0, 0, 0, 0]]⟩ : Allocator Nat)
      ∧ 0 < 2 ∧ 2 ≤ 4) ∧
    ∃ run a1, New 64 2 (⟨4, 0, 1, [[0, 0, 0, 0]]⟩ : Allocator Nat) = .ok (some run, a1) ∧
      (2 ≤ 1 → size 64 a1 = (size 64 (⟨4, 0, 1, [[0, 0, 0, 0]]⟩ : Allocator Nat) + 2)
        % 2 ^ 64) ∧
      (1 < 2 → size 64 a1 = (size 64 (⟨4, 0, 1, [[0, 0, 0, 0]]⟩ : Allocator Nat) + (2 + 1))
        % 2 ^ 64) :=
  have hr : Reachable 64 4 (⟨4, 0, 1, [[0, 0, 0, 0]]⟩ : Allocator Nat) :=
    ⟨Allocator.empty, [Op.New 3], ⟨⟨4, 0, 1, [[0, 0, 0, 0]]⟩, []⟩, rfl, rfl, by decide⟩
  ⟨⟨by decide, by decide, hr, by decide, by decide⟩,
    New_size_change 64 4 2 ⟨4, 0, 1, [[0, 0, 0, 0]]⟩ (by decide) (by decide) hr
      (by decide) (by decide)⟩

/-- C2: after `SetBlockSize(b)` with `b >= 1`, in every sequence of calls made of
`New(k)` with `1 <= k <= b`, `push_back` and `getState` (no `rollBack`, `DeleteAll` or
`pop_back`; fewer calls than `SIZE_T` has values) every call returns, and the runs
returned by the `New` calls, in call order, are such that the `i`-th has the length
`k_i` asked for, its block is the frontier's block right after the call, its start
offset is `blockSize - remains` (with `remains` taken before the call subtracts
`k_i`), it lies inside one allocated block (block index below the number of blocks,
offset + length at most `b`), and any two distinct runs are disjoint. -/
theorem New_runs_inside_and_disjoint {T : Type} [Inhabited T] (w b : Nat)
    (ops : List (Op T)) (a0 : Allocator T) (hb : 1 ≤ b) (hbw : b < 2 ^ w)
    (hfit : ops.length < 2 ^ w) (hops : ∀ op ∈ ops, op.grows b = true) :
    ∃ hs s, Session.trace w ops ⟨SetBlockSize w b a0, []⟩ = .ok (hs, s) ∧
      Session.run w ops ⟨SetBlockSize w b a0, []⟩ = .ok s ∧
      hs.map Handout.asked = ops.filterMap Op.asked ∧
      (∀ x ∈ hs,
        x.run.len = x.asked ∧ x.run.block = x.after.index ∧
        x.run.offset + x.run.len + x.after.remains = b ∧
        x.run.block < s.arena.memory.length ∧ x.run.offset + x.run.len ≤ b) ∧
      hs.Pairwise (fun x y => Run.disjoint x.run y.run) := by
  obtain ⟨hs, s, h1, h2, _, _, _, _, h7, h8, h9⟩ :=
    trace_spec ops ⟨SetBlockSize w b a0, []⟩ (arenaInv_SetBlockSize hb hbw a0)
      (by show 0 + ops.length < 2 ^ w; omega) hops
  exact ⟨hs, s, h1, h2, h7, fun x hx => (h8 x hx).2, h9⟩

theorem New_runs_inside_and_disjoint_witness :
    (1 ≤ 4 ∧ 4 < 2 ^ 64 ∧
      [Op.New 3, Op.push_back 9, Op.New 2, Op.getState, Op.New 1, Op.New 4].length
        < 2 ^ 64 ∧
      ∀ op ∈ [Op.New 3, Op.push_back 9, Op.New 2, Op.getState, Op.New 1, Op.New 4],
        Op.grows (T := Nat) 4 op = true) ∧
    (∃ hs s, Session.trace 64
        [Op.New 3, Op.push_back 9, Op.New 2, Op.getState, Op.New 1, Op.New 4]
        ⟨SetBlockSize 64 4 (Allocator.empty : Allocator Nat), []⟩ = .ok (hs, s) ∧
      Session.run 64 [Op.New 3, Op.push_back 9, Op.New 2, Op.getState, Op.New 1, Op.New 4]
        ⟨SetBlockSize 64 4 (Allocator.empty : Allocator Nat), []⟩ = .ok s ∧
      hs.map Handout.asked
        = [Op.New 3, Op.push_back 9, Op.New 2, Op.getState, Op.New 1,
            Op.New (T := Nat) 4].filterMap Op.asked ∧
      (∀ x ∈ hs,
        x.run.len = x.asked ∧ x.run.block = x.after.index ∧
        x.run.offset + x.run.len + x.after.remains = 4 ∧
        x.run.block < s.arena.memory.length ∧ x.run.offset + x.run.len ≤ 4) ∧
      hs.Pairwise (fun x y => Run.disjoint x.run y.run)) ∧
    (Session.trace 64 [Op.New 3, Op.push_back 9, Op.New 2, Op.getState, Op.New 1, Op.New 4]
        ⟨SetBlockSize 64 4 (Allocator.empty : Allocator Nat), []⟩).toOption.map
          (fun r => r.1.map Handout.run)
      = some [⟨0, 0, 3⟩, ⟨1, 0, 2⟩, ⟨1, 2, 1⟩, ⟨2, 0, 4⟩] := by
  have hops : ∀ op ∈ [Op.New 3, Op.push_back 9, Op.New 2, Op.getState, Op.New 1, Op.New 4],
      Op.grows (T := Nat) 4 op = true := by
    intro op hop
    simp only [List.mem_cons, List.mem_singleton, List.not_mem_nil, or_false] at hop
    rcases hop with h | h | h | h | h | h <;> rw [h] <;> rfl
  exact ⟨⟨by decide, by decide, by decide, hops⟩,
    New_runs_inside_and_disjoint 64 4
      [Op.New 3, Op.push_back 9, Op.New 2, Op.getState, Op.New 1, Op.New 4]
      Allocator.empty (by decide) (by decide) (by decide) hops, by rfl⟩

/-- C3: cross-block rollback restores the size.  If a checkpoint is captured in a
reachable arena (`b >= 1`) and later calls move the frontier into a later block, then
`rollBack` of that checkpoint returns (given fuel for its loops), sets the frontier to
exactly the checkpoint and `size()` to its value at capture time. -/
theorem rollBack_cross_block_size {T : Type} [Inhabited T] (w b fuel : Nat)
    (ac : Allocator T) (later : List (Op T)) (s1 : Session T)
    (hb : 1 ≤ b) (hbw : b < 2 ^ w) (hr : Reachable w b ac)
    (hrun : Session.run w later ⟨ac, [ac.getState]⟩ = .ok s1)
    (hlen : s1.arena.memory.length < 2 ^ w)
    (hcross : ac.getState.index < s1.arena.index)
    (hf1 : b ≤ fuel) (hf2 : s1.arena.index ≤ fuel) :
    ∃ a2, rollBack fuel ac.getState s1.arena = .ok a2 ∧ a2.getState = ac.getState ∧
      size w a2 = size w ac := by
  have hac := hr.inv hb hbw
  have hs0 : SInv w b (⟨ac, [ac.getState]⟩ : Session T) := by
    refine ⟨hac, ?_⟩
    intro c hc
    rw [List.mem_singleton] at hc
    rw [hc]
    exact hac.getState
  have hs1 := Session.run_inv later hs0 hrun hlen
  have hcp := hs1.2 ac.getState
  have hidx : s1.arena.index < s1.arena.memory.length := by
    rcases hs1.1.idx with h1 | ⟨h1, h2, _⟩
    · exact h1
    · exfalso
      have hmono := Session.run_length later hrun
      have hlen0 : ac.memory.length = 0 := by
        rw [h2] at hmono
        exact Nat.le_zero.mp hmono
      rcases hac.idx with g1 | ⟨g1, _, _⟩
      · omega
      · have : ac.getState.index = ac.index := rfl
        omega
  obtain ⟨m, hm, _⟩ := rollBack_cross_ok fuel ac.getState hs1.1 hidx
    hcross hf1 hf2
  exact ⟨_, hm, rfl, size_congr hac.bs.symm rfl rfl⟩

theorem rollBack_cross_block_size_witness :
    (1 ≤ 4 ∧ 4 < 2 ^ 64 ∧
      Reachable 64 4 (⟨4, 2, 2, [[1, 2, 3, 4], [5, 6, 7, 8], [9, 10, 0, 0]]⟩ : Allocator Nat) ∧
      Session.run 64
        [Op.push_back 11, Op.push_back 12, Op.push_back 13, Op.push_back 14, Op.push_back 15]
        ⟨(⟨4, 2, 2, [[1, 2, 3, 4], [5, 6, 7, 8], [9, 10, 0, 0]]⟩ : Allocator Nat), [⟨2, 2⟩]⟩
        = .ok ⟨⟨4, 3, 1, [[1, 2, 3, 4], [5, 6, 7, 8], [9, 10, 11, 12], [13, 14, 15, 0]]⟩,
            [⟨2, 2⟩]⟩ ∧
      4 < 2 ^ 64 ∧ 2 < 3 ∧ 4 ≤ 8 ∧ 3 ≤ 8) ∧
    ∃ a2, rollBack 8 ⟨2, 2⟩
        (⟨4, 3, 1, [[1, 2, 3, 4], [5, 6, 7, 8], [9, 10, 11, 12], [13, 14, 15, 0]]⟩ :
          Allocator Nat) = .ok a2 ∧
      a2.getState = ⟨2, 2⟩ ∧
      size 64 a2 = size 64
        (⟨4, 2, 2, [[1, 2, 3, 4], [5, 6, 7, 8], [9, 10, 0, 0]]⟩ : Allocator Nat) := by
  have hten : Session.run 64
      [Op.push_back 1, Op.push_back 2, Op.push_back 3, Op.push_back 4, Op.push_back 5,
        Op.push_back 6, Op.push_back 7, Op.push_back 8, Op.push_back 9, Op.push_back 10]
      ⟨SetBlockSize 64 4 (Allocator.empty : Allocator Nat), []⟩
      = .ok ⟨⟨4, 2, 2, [[1, 2, 3, 4], [5, 6, 7, 8], [9, 10, 0, 0]]⟩, []⟩ := by rfl
  have hr : Reachable 64 4
      (⟨4, 2, 2, [[1, 2, 3, 4], [5, 6, 7, 8], [9, 10, 0, 0]]⟩ : Allocator Nat) :=
    ⟨Allocator.empty, _, _, hten, rfl, by decide⟩
  have hfive : Session.run 64
      [Op.push_back 11, Op.push_back 12, Op.push_back 13, Op.push_back 14, Op.push_back 15]
      ⟨(⟨4, 2, 2, [[1, 2, 3, 4], [5, 6, 7, 8], [9, 10, 0, 0]]⟩ : Allocator Nat), [⟨2, 2⟩]⟩
      = .ok ⟨⟨4, 3, 1, [[1, 2, 3, 4], [5, 6, 7, 8], [9, 10, 11, 12], [13, 14, 15, 0]]⟩,
          [⟨2, 2⟩]⟩ := by rfl
  exact ⟨⟨by decide, by decide, hr, hfive, by decide, by decide, by decide, by decide⟩,
    rollBack_cross_block_size 64 4 8
      ⟨4, 2, 2, [[1, 2, 3, 4], [5, 6, 7, 8], [9, 10, 0, 0]]⟩
      [Op.push_back 11, Op.push_back 12, Op.push_back 13, Op.push_back 14, Op.push_back 15]
      ⟨⟨4, 3, 1, [[1, 2, 3, 4], [5, 6, 7, 8], [9, 10, 11, 12], [13, 14, 15, 0]]⟩, [⟨2, 2⟩]⟩
      (by decide) (by decide) hr hfive (by decide) (by decide) (by decide) (by decide)⟩

/-- C4, evaluated at a failing input: with `b = 4`, three appends, a capture at size
3 and two more appends that reach block 1, `rollBack` of the checkpoint starts its
first loop at offset `state.remains = 1` and resets the slots at offsets 1 and 2 of
block 0, which were claimed before the checkpoint: `Get(1)` and `Get(2)` returned 2
and 3 just before the rollback and return the default value afterwards. -/
theorem rollBack_clobbers_before_checkpoint :
    Session.run 64
        [Op.push_back 1, Op.push_back 2, Op.push_back 3, Op.getState,
          Op.push_back 4, Op.push_back 5]
        ⟨SetBlockSize 64 4 (Allocator.empty : Allocator Nat), []⟩
      = .ok ⟨⟨4, 1, 3, [[1, 2, 3, 4], [5, 0, 0, 0]]⟩, [⟨0, 1⟩]⟩ ∧
    rollBack 8 ⟨0, 1⟩ (⟨4, 1, 3, [[1, 2, 3, 4], [5, 0, 0, 0]]⟩ : Allocator Nat)
      = .ok ⟨4, 0, 1, [[1, 0, 0, 0], [0, 0, 0, 0]]⟩ ∧
    size 64 (⟨4, 0, 1, [[1, 0, 0, 0], [0, 0, 0, 0]]⟩ : Allocator Nat) = 3 ∧
    Get (⟨4, 1, 3, [[1, 2, 3, 4], [5, 0, 0, 0]]⟩ : Allocator Nat) 1 = .ok 2 ∧
    Get (⟨4, 0, 1, [[1, 0, 0, 0], [0, 0, 0, 0]]⟩ : Allocator Nat) 1 = .ok 0 ∧
    Get (⟨4, 1, 3, [[1, 2, 3, 4], [5, 0, 0, 0]]⟩ : Allocator Nat) 2 = .ok 3 ∧
    Get (⟨4, 0, 1, [[1, 0, 0, 0], [0, 0, 0, 0]]⟩ : Allocator Nat) 2 = .ok 0 := by
  refine ⟨by rfl, by rfl, by rfl, by rfl, by rfl, by rfl, by rfl⟩

/-- C5, evaluated at two failing inputs.  In the scenario of the spec (`b = 4`, ten
appends, capture, five appends) `rollBack` leaves the values 14 and 15 at the flat
positions 13 and 14, which were claimed after the checkpoint.  With `b = 2`, one
append, capture and four appends, block 1 lies strictly between the block of the
checkpoint and the block of the frontier and keeps both its values 3 and 4. -/
theorem rollBack_leaves_claimed_slots :
    (rollBack 8 ⟨2, 2⟩
        (⟨4, 3, 1, [[1, 2, 3, 4], [5, 6, 7, 8], [9, 10, 11, 12], [13, 14, 15, 0]]⟩ :
          Allocator Nat)
      = .ok ⟨4, 2, 2, [[1, 2, 3, 4], [5, 6, 7, 8], [9, 10, 0, 0], [0, 14, 15, 0]]⟩ ∧
     Get (⟨4, 2, 2, [[1, 2, 3, 4], [5, 6, 7, 8], [9, 10, 0, 0], [0, 14, 15, 0]]⟩ :
          Allocator Nat) 13 = .ok 14 ∧
     Get (⟨4, 2, 2, [[1, 2, 3, 4], [5, 6, 7, 8], [9, 10, 0, 0], [0, 14, 15, 0]]⟩ :
          Allocator Nat) 14 = .ok 15) ∧
    (Session.run 64
        [Op.push_back 1, Op.getState, Op.push_back 2, Op.push_back 3, Op.push_back 4,
          Op.push_back 5]
        ⟨SetBlockSize 64 2 (Allocator.empty : Allocator Nat), []⟩
      = .ok ⟨⟨2, 2, 1, [[1, 2], [3, 4], [5, 0]]⟩, [⟨0, 1⟩]⟩ ∧
     rollBack 8 ⟨0, 1⟩ (⟨2, 2, 1, [[1, 2], [3, 4], [5, 0]]⟩ : Allocator Nat)
      = .ok ⟨2, 0, 1, [[1, 0], [3, 4], [0, 0]]⟩ ∧
     Get (⟨2, 0, 1, [[1, 0], [3, 4], [0, 0]]⟩ : Allocator Nat) 2 = .ok 3 ∧
     Get (⟨2, 0, 1, [[1, 0], [3, 4], [0, 0]]⟩ : Allocator Nat) 3 = .ok 4) := by
  refine ⟨⟨by rfl, by rfl, by rfl⟩, ⟨by rfl, by rfl, by rfl, by rfl⟩⟩

/-- C6, evaluated at a failing input: with `b = 2`, one append, a capture, three more
appends and a rollback to the checkpoint, block 1 still holds the values 3 and 4;
`New(2)` then advances into block 1 and returns the run at offset 0 of that block,
whose two slots hold 3 and 4 instead of the default value. -/
theorem New_after_rollBack_not_default :
    Session.run 64
        [Op.push_back 1, Op.getState, Op.push_back 2, Op.push_back 3, Op.push_back 4,
          Op.rollBack 8 0]
        ⟨SetBlockSize 64 2 (Allocator.empty : Allocator Nat), []⟩
      = .ok ⟨⟨2, 0, 1, [[1, 0], [3, 4]]⟩, [⟨0, 1⟩]⟩ ∧
    New 64 2 (⟨2, 0, 1, [[1, 0], [3, 4]]⟩ : Allocator Nat)
      = .ok (some ⟨1, 0, 2⟩, ⟨2, 1, 0, [[1, 0], [3, 4]]⟩) ∧
    getSlot ([[1, 0], [3, 4]] : List (List Nat)) 1 0 = .ok 3 ∧
    getSlot ([[1, 0], [3, 4]] : List (List Nat)) 1 1 = .ok 4 ∧
    (default : Nat) = 0 := by
  refine ⟨by rfl, by rfl, by rfl, by rfl, by rfl⟩

/-- C7, evaluated at a failing input: with `b = 4`, one append, a capture at size 1
and one more append in the same block, the guard of `rollBack` compares
`state.remains < remains`, that is `3 < 2`, and the call changes nothing: the
frontier stays at `(0, 2)` and `size()` stays 2 instead of returning to 1. -/
theorem rollBack_same_block_ignored :
    Session.run 64 [Op.push_back 1, Op.getState, Op.push_back 2]
        ⟨SetBlockSize 64 4 (Allocator.empty : Allocator Nat), []⟩
      = .ok ⟨⟨4, 0, 2, [[1, 2, 0, 0]]⟩, [⟨0, 3⟩]⟩ ∧
    size 64 (⟨4, 0, 3, [[1, 0, 0, 0]]⟩ : Allocator Nat) = 1 ∧
    (∀ fuel, rollBack fuel ⟨0, 3⟩ (⟨4, 0, 2, [[1, 2, 0, 0]]⟩ : Allocator Nat)
      = .ok ⟨4, 0, 2, [[1, 2, 0, 0]]⟩) ∧
    size 64 (⟨4, 0, 2, [[1, 2, 0, 0]]⟩ : Allocator Nat) = 2 := by
  refine ⟨by rfl, by rfl, fun fuel => rollBack_noop (by decide) fuel, by rfl⟩

/-- C8, evaluated at two failing inputs.  With `b = 2`, two appends, a capture and a
`pop_back`, the checkpoint `(0, 0)` lies ahead of the frontier `(0, 1)`; `rollBack`
takes its same-block branch and moves the frontier forward to the checkpoint, so
`size()` goes from 1 to 2.  With `b = 3` the checkpoint `(0, 1)` lies ahead of the
frontier `(0, 2)` and the loop of that branch never advances its counter: no amount
of fuel lets the call return. -/
theorem rollBack_ahead_not_noop :
    (Session.run 64 [Op.push_back 1, Op.push_back 2, Op.getState, Op.pop_back]
        ⟨SetBlockSize 64 2 (Allocator.empty : Allocator Nat), []⟩
      = .ok ⟨⟨2, 0, 1, [[1, 0]]⟩, [⟨0, 0⟩]⟩ ∧
     (∀ fuel, rollBack fuel ⟨0, 0⟩ (⟨2, 0, 1, [[1, 0]]⟩ : Allocator Nat)
      = .ok ⟨2, 0, 0, [[1, 0]]⟩) ∧
     size 64 (⟨2, 0, 1, [[1, 0]]⟩ : Allocator Nat) = 1 ∧
     size 64 (⟨2, 0, 0, [[1, 0]]⟩ : Allocator Nat) = 2) ∧
    (Session.run 64 [Op.push_back 1, Op.push_back 2, Op.getState, Op.pop_back]
        ⟨SetBlockSize 64 3 (Allocator.empty : Allocator Nat), []⟩
      = .ok ⟨⟨3, 0, 2, [[1, 0, 0]]⟩, [⟨0, 1⟩]⟩ ∧
     ∀ fuel, rollBack fuel ⟨0, 1⟩ (⟨3, 0, 2, [[1, 0, 0]]⟩ : Allocator Nat)
      = .error Fault.fuel) := by
  refine ⟨⟨by rfl, ?_, by rfl, by rfl⟩, ⟨by rfl, ?_⟩⟩
  · intro fuel
    cases fuel <;> rfl
  · intro fuel
    have hinv : ArenaInv 64 3 (⟨3, 0, 2, [[1, 0, 0]]⟩ : Allocator Nat) :=
      ⟨by decide, by decide, rfl, ⟨rfl, by decide⟩, by decide, by decide,
        Or.inl (by decide)⟩
    exact rollBack_same_block_stuck hinv (by decide) rfl (by decide) (by decide) fuel

/-- C9: when neither `c.index < index` nor `c.index == index && c.remains < remains`
holds, `rollBack(c)` returns the arena as it is (block size, frontier and every slot);
in particular `getState()` followed at once by `rollBack` of its result changes
nothing, so the frontier and `size()` are unchanged. -/
theorem rollBack_guard_false_noop {T : Type} [Inhabited T] (fuel : Nat)
    (c : AllocatorState) (a : Allocator T) (h1 : ¬ c.index < a.index)
    (h2 : ¬ (c.index = a.index ∧ c.remains < a.remains)) :
    rollBack fuel c a = .ok a ∧ rollBack fuel a.getState a = .ok a :=
  ⟨rollBack_noop (fun hg => hg.elim h1 h2) fuel,
    rollBack_noop (fun hg => hg.elim (fun g => Nat.lt_irrefl _ g)
      (fun g => Nat.lt_irrefl _ g.2)) fuel⟩

theorem rollBack_guard_false_noop_witness :
    (¬ (1 < 0) ∧ ¬ (1 = 0 ∧ 0 < 2)) ∧
    rollBack 8 ⟨1, 0⟩ (⟨4, 0, 2, [[1, 2, 0, 0]]⟩ : Allocator Nat)
      = .ok ⟨4, 0, 2, [[1, 2, 0, 0]]⟩ ∧
    rollBack 8 (getState (⟨4, 0, 2, [[1, 2, 0, 0]]⟩ : Allocator Nat))
      (⟨4, 0, 2, [[1, 2, 0, 0]]⟩ : Allocator Nat) = .ok ⟨4, 0, 2, [[1, 2, 0, 0]]⟩ :=
  ⟨⟨by decide, by decide⟩,
    rollBack_guard_false_noop 8 ⟨1, 0⟩ (⟨4, 0, 2, [[1, 2, 0, 0]]⟩ : Allocator Nat)
      (by decide) (by decide)⟩

/-- C10, the stack law: in an arena reachable after `SetBlockSize(b)` with `b >= 1`,
`n` calls of `push_back` followed by `n` calls of `pop_back` all return (as long as
the block count stays a `SIZE_T`), `size()` is back at its value `s` from before the
sequence, and `Get(i)` returns for every `i < s` what it returned before, also when
the appends cross block boundaries and allocate blocks. -/
theorem push_pop_stack_law {T : Type} [Inhabited T] (w b : Nat) (a : Allocator T)
    (vs : List T) (hb : 1 ≤ b) (hbw : b < 2 ^ w) (hr : Reachable w b a)
    (hfit : a.memory.length + vs.length < 2 ^ w) :
    ∃ a2, Session.run w (vs.map Op.push_back ++ List.replicate vs.length Op.pop_back)
        ⟨a, []⟩ = .ok ⟨a2, []⟩ ∧
      size w a2 = size w a ∧ ∀ i, i < size w a → Get a2 i = Get a i := by
  have h := hr.inv hb hbw
  obtain ⟨a2, hrun, hinv2, hfill, hget, _⟩ := push_pop_restore [] vs a h hfit
  refine ⟨a2, hrun, ?_, ?_⟩
  · rw [hinv2.size_eq_fill, h.size_eq_fill, hfill]
  · intro i hi
    rw [h.size_eq_fill] at hi
    exact hget i (Nat.lt_of_lt_of_le hi (Nat.mod_le _ _))

theorem push_pop_stack_law_witness :
    (1 ≤ 2 ∧ 2 < 2 ^ 64 ∧ Reachable 64 2 (⟨2, 1, 1, [[1, 2], [3, 0]]⟩ : Allocator Nat) ∧
      ([[1, 2], [3, 0]] : List (List Nat)).length + [7, 8, 9].length < 2 ^ 64) ∧
    ∃ a2, Session.run 64
        ([7, 8, 9].map Op.push_back ++ List.replicate [7, 8, 9].length Op.pop_back)
        ⟨(⟨2, 1, 1, [[1, 2], [3, 0]]⟩ : Allocator Nat), []⟩ = .ok ⟨a2, []⟩ ∧
      size 64 a2 = size 64 (⟨2, 1, 1, [[1, 2], [3, 0]]⟩ : Allocator Nat) ∧
      ∀ i, i < size 64 (⟨2, 1, 1, [[1, 2], [3, 0]]⟩ : Allocator Nat) →
        Get a2 i = Get (⟨2, 1, 1, [[1, 2], [3, 0]]⟩ : Allocator Nat) i := by
  have hrun : Session.run 64 [Op.push_back 1, Op.push_back 2, Op.push_back 3]
      ⟨SetBlockSize 64 2 (Allocator.empty : Allocator Nat), []⟩
      = .ok ⟨⟨2, 1, 1, [[1, 2], [3, 0]]⟩, []⟩ := by rfl
  have hr : Reachable 64 2 (⟨2, 1, 1, [[1, 2], [3, 0]]⟩ : Allocator Nat) :=
    ⟨Allocator.empty, _, _, hrun, rfl, by decide⟩
  exact ⟨⟨by decide, by decide, hr, by decide⟩,
    push_pop_stack_law 64 2 ⟨2, 1, 1, [[1, 2], [3, 0]]⟩ [7, 8, 9] (by decide) (by decide)
      hr (by decide)⟩

/-- C11, vector behaviour: for every `b >= 1` and values `v_0 .. v_(n-1)` (with `n`
below the range of `SIZE_T`), the calls `push_back(v_0)`, ..., `push_back(v_(n-1))`
after `SetBlockSize(b)` all return, `size()` is `n`, and `Get(i)`, which reads block
`i / b` at offset `i % b`, returns `v_i` for every `i < n`. -/
theorem push_back_vector {T : Type} [Inhabited T] (w b : Nat) (vs : List T)
    (a0 : Allocator T) (hb : 1 ≤ b) (hbw : b < 2 ^ w) (hn : vs.length < 2 ^ w) :
    ∃ a, Session.run w (vs.map Op.push_back) ⟨SetBlockSize w b a0, []⟩ = .ok ⟨a, []⟩ ∧
      size w a = vs.length ∧
      (∀ i v, vs[i]? = some v → Get a i = .ok v) ∧
      (∀ i, Get a i = getSlot a.memory (i / b) (i % b)) := by
  have h0 := arenaInv_SetBlockSize (T := T) hb hbw a0
  have hf0 : fill w (SetBlockSize w b a0) = 0 := by
    unfold fill SetBlockSize
    rw [if_pos (subW_zero_one w)]
  obtain ⟨a, hrun, hinv, hfill, _, hvals, _⟩ :=
    pushes_spec [] vs (SetBlockSize w b a0) h0 (by show 0 + vs.length < 2 ^ w; omega)
  rw [hf0, Nat.zero_add] at hfill
  refine ⟨a, hrun, ?_, ?_, ?_⟩
  · rw [hinv.size_eq_fill, hfill, Nat.mod_eq_of_lt hn]
  · intro i v hv
    have := hvals i v hv
    rw [hf0, Nat.zero_add] at this
    exact this
  · intro i
    unfold Get
    rw [hinv.bs, if_neg (by omega)]

theorem push_back_vector_witness :
    (1 ≤ 2 ∧ 2 < 2 ^ 64 ∧ [7, 8, 9, 10, 11].length < 2 ^ 64) ∧
    ∃ a, Session.run 64 ([7, 8, 9, 10, 11].map Op.push_back)
        ⟨SetBlockSize 64 2 (Allocator.empty : Allocator Nat), []⟩ = .ok ⟨a, []⟩ ∧
      size 64 a = [7, 8, 9, 10, 11].length ∧
      (∀ i v, [7, 8, 9, 10, 11][i]? = some v → Get a i = .ok v) ∧
      (∀ i, Get a i = getSlot a.memory (i / 2) (i % 2)) :=
  ⟨⟨by decide, by decide, by decide⟩,
    push_back_vector 64 2 [7, 8, 9, 10, 11] Allocator.empty (by decide) (by decide)
      (by decide)⟩

/-- C12: in every arena reached after `SetBlockSize(b)` by a sequence of allocations
(`New`, `push_back`), `DeleteAll` returns (given fuel for its two loops), `size()` is
0 afterwards, `BlockSize()` and the number of blocks are unchanged, and every slot of
every block holds the default-constructed value. -/
theorem DeleteAll_after_allocations {T : Type} [Inhabited T] (w b fuel : Nat)
    (a0 : Allocator T) (ops : List (Op T)) (s : Session T) (hbw : b < 2 ^ w)
    (hops : ∀ op ∈ ops, op.isAlloc = true)
    (hrun : Session.run w ops ⟨SetBlockSize w b a0, []⟩ = .ok s)
    (hlen : s.arena.memory.length < 2 ^ w) (hf1 : b ≤ fuel)
    (hf2 : s.arena.memory.length ≤ fuel) :
    ∃ a1, DeleteAll fuel s.arena = .ok a1 ∧ size w a1 = 0 ∧
      a1.BlockSize = s.arena.BlockSize ∧ a1.BlockSize = b ∧
      a1.memory.length = s.arena.memory.length ∧
      ∀ i j, i < a1.memory.length → j < b → getSlot a1.memory i j = .ok default := by
  rcases Nat.eq_zero_or_pos b with hb0 | hb
  · have hs : s = ⟨SetBlockSize w b a0, []⟩ :=
      alloc_run_zero ops (by rw [hb0]; rfl) rfl rfl hops hrun
    rw [hs]
    refine ⟨SetBlockSize w b a0, rfl, ?_, rfl, rfl, rfl, ?_⟩
    · rw [hb0]
      simp [size, SetBlockSize, subW, addW, mulW]
    · intro i j hi
      exact absurd hi (Nat.not_lt_zero _)
  · have hinv := (Session.run_inv ops (sinv_start hb hbw a0) hrun hlen).1
    obtain ⟨a1, h1, h2, h3, h4, h5, _, _⟩ := DeleteAll_spec fuel hinv hf1 hf2
    refine ⟨a1, h1, h4, ?_, h2, h3, ?_⟩
    · show a1.blockSize = s.arena.blockSize
      rw [h2, hinv.bs]
    · intro i j hi hj
      rw [h3] at hi
      exact h5 i j hi hj

theorem DeleteAll_after_allocations_witness :
    (2 < 2 ^ 64 ∧
      (∀ op ∈ [Op.New 2, Op.push_back 5, Op.New 1], Op.isAlloc (T := Nat) op = true) ∧
      Session.run 64 [Op.New 2, Op.push_back 5, Op.New 1]
        ⟨SetBlockSize 64 2 (Allocator.empty : Allocator Nat), []⟩
        = .ok ⟨⟨2, 1, 0, [[0, 0], [5, 0]]⟩, []⟩ ∧
      ([[0, 0], [5, 0]] : List (List Nat)).length < 2 ^ 64 ∧ 2 ≤ 4 ∧
      ([[0, 0], [5, 0]] : List (List Nat)).length ≤ 4) ∧
    ∃ a1, DeleteAll 4 (⟨2, 1, 0, [[0, 0], [5, 0]]⟩ : Allocator Nat) = .ok a1 ∧
      size 64 a1 = 0 ∧
      a1.BlockSize = (⟨2, 1, 0, [[0, 0], [5, 0]]⟩ : Allocator Nat).BlockSize ∧
      a1.BlockSize = 2 ∧
      a1.memory.length = ([[0, 0], [5, 0]] : List (List Nat)).length ∧
      ∀ i j, i < a1.memory.length → j < 2 → getSlot a1.memory i j = .ok default := by
  have hrun : Session.run 64 [Op.New 2, Op.push_back 5, Op.New 1]
      ⟨SetBlockSize 64 2 (Allocator.empty : Allocator Nat), []⟩
      = .ok ⟨⟨2, 1, 0, [[0, 0], [5, 0]]⟩, []⟩ := by rfl
  have hops : ∀ op ∈ [Op.New 2, Op.push_back 5, Op.New 1],
      Op.isAlloc (T := Nat) op = true := by
    intro op hop
    simp only [List.mem_cons, List.mem_singleton, List.not_mem_nil, or_false] at hop
    rcases hop with h | h | h <;> rw [h] <;> rfl
  exact ⟨⟨by decide, hops, hrun, by decide, by decide, by decide⟩,
    DeleteAll_after_allocations 64 2 4 Allocator.empty
      [Op.New 2, Op.push_back 5, Op.New 1] ⟨⟨2, 1, 0, [[0, 0], [5, 0]]⟩, []⟩
      (by decide) hops hrun (by decide) (by decide) (by decide)⟩

/-- C13, evaluated at a failing input: with `b = 2`, the checkpoint `c0` captured
right after `SetBlockSize` is the sentinel `(2^64 - 1, 0)`.  After one append,
`DeleteAll` yields size 0 and a reset block, while `rollBack(c0)` finds neither
`c0.index < index` nor `c0.index == index` (the comparison is unsigned and the sentinel
is the largest value) and returns the arena as it is, for every fuel: size 1, the
appended value still in place. -/
theorem DeleteAll_rollBack_configure_differ :
    getState (SetBlockSize 64 2 (Allocator.empty : Allocator Nat)) = ⟨2 ^ 64 - 1, 0⟩ ∧
    Session.run 64 [Op.getState, Op.push_back 1]
        ⟨SetBlockSize 64 2 (Allocator.empty : Allocator Nat), []⟩
      = .ok ⟨⟨2, 0, 1, [[1, 0]]⟩, [⟨2 ^ 64 - 1, 0⟩]⟩ ∧
    DeleteAll 4 (⟨2, 0, 1, [[1, 0]]⟩ : Allocator Nat) = .ok ⟨2, 0, 2, [[0, 0]]⟩ ∧
    (∀ fuel, rollBack fuel ⟨2 ^ 64 - 1, 0⟩ (⟨2, 0, 1, [[1, 0]]⟩ : Allocator Nat)
      = .ok ⟨2, 0, 1, [[1, 0]]⟩) ∧
    size 64 (⟨2, 0, 2, [[0, 0]]⟩ : Allocator Nat) = 0 ∧
    size 64 (⟨2, 0, 1, [[1, 0]]⟩ : Allocator Nat) = 1 ∧
    getSlot ([[0, 0]] : List (List Nat)) 0 0 = .ok 0 ∧
    getSlot ([[1, 0]] : List (List Nat)) 0 0 = .ok 1 := by
  refine ⟨by rfl, by rfl, by rfl, fun fuel => rollBack_noop (by decide) fuel, by rfl,
    by rfl, by rfl, by rfl⟩

/-- C14: for every arena with block size `b >= 1` and every `k > b`, `New(k)` fails
the assertion `elements <= blockSize` and returns no run. -/
theorem New_too_long_fails {T : Type} [Inhabited T] (w k : Nat) (a : Allocator T)
    (hb : 1 ≤ a.blockSize) (hk : a.blockSize < k) :
    Assert (decide (k ≤ a.blockSize)) = .error Fault.assertion ∧
    New w k a = .error Fault.assertion := by
  have hk0 : k ≠ 0 := by omega
  have hle : ¬ k ≤ a.blockSize := by omega
  constructor
  · unfold Assert
    simp [hle]
  · rw [New_eq, if_neg hk0, if_neg hle]

theorem New_too_long_fails_witness :
    (1 ≤ (⟨4, 0, 2, [[1, 2, 0, 0]]⟩ : Allocator Nat).blockSize ∧
      (⟨4, 0, 2, [[1, 2, 0, 0]]⟩ : Allocator Nat).blockSize < 5) ∧
    Assert (decide (5 ≤ (⟨4, 0, 2, [[1, 2, 0, 0]]⟩ : Allocator Nat).blockSize))
      = .error Fault.assertion ∧
    New 64 5 (⟨4, 0, 2, [[1, 2, 0, 0]]⟩ : Allocator Nat) = .error Fault.assertion :=
  ⟨⟨by decide, by decide⟩,
    New_too_long_fails 64 5 (⟨4, 0, 2, [[1, 2, 0, 0]]⟩ : Allocator Nat) (by decide)
      (by decide)⟩

/-- C15: for every arena with `blockSize >= 1` and every value `t`, `push_back(t)`
gives the same result (frontier, blocks and slot contents, or the same failure) as
`New(1)` followed by the assignment of `t` into the slot that `New` returned, also
when the current block is exhausted and the frontier advances. -/
theorem push_back_eq_New_then_assign {T : Type} [Inhabited T] (w : Nat) (t : T)
    (a : Allocator T) (hb : 1 ≤ a.blockSize) :
    push_back w t a = appendByNew w t a := by
  unfold appendByNew
  rw [push_back_eq, New_eq, if_neg Nat.one_ne_zero, if_pos hb]
  by_cases hi : (serve w 1 a).index < (serve w 1 a).memory.length
  · rw [if_pos hi]
  · rw [if_neg hi]
    dsimp only
    unfold setSlot
    rw [List.getElem?_eq_none (by omega)]

theorem push_back_eq_New_then_assign_witness :
    1 ≤ (⟨2, 0, 0, [[1, 2]]⟩ : Allocator Nat).blockSize ∧
    push_back 64 3 (⟨2, 0, 0, [[1, 2]]⟩ : Allocator Nat)
      = appendByNew 64 3 (⟨2, 0, 0, [[1, 2]]⟩ : Allocator Nat) :=
  ⟨by decide,
    push_back_eq_New_then_assign 64 3 (⟨2, 0, 0, [[1, 2]]⟩ : Allocator Nat) (by decide)⟩

/-- C16, growth monotonicity.  In an arena reachable after `SetBlockSize(b)` with
`b >= 1`, `New(k)` with `0 < k <= b` and `push_back` return, and they add exactly one
block when the current block cannot serve the request (`remains < k`, for `push_back`
`remains < 1`) and `index` is the last block index or the sentinel of an empty store,
and none otherwise; `pop_back` (with `size() > 0`), `DeleteAll` and a cross-block
`rollBack` return with the block count unchanged, and `getState` leaves the arena as
it is.  In every arena whatsoever (with a block count that is a `SIZE_T`), whenever
one of these calls returns, the block count has changed in the same way, so it never
decreases. -/
theorem blocks_never_decrease {T : Type} [Inhabited T] (w b k fuel : Nat) (t : T)
    (a : Allocator T) (hb : 1 ≤ b) (hbw : b < 2 ^ w) (hr : Reachable w b a)
    (hk : 0 < k) (hkb : k ≤ b) (hf1 : b ≤ fuel) (hf2 : a.memory.length ≤ fuel) :
    (∃ r a1, New w k a = .ok (some r, a1) ∧ BlockGrowth w k a a1) ∧
    (∃ a1, push_back w t a = .ok a1 ∧ BlockGrowth w 1 a a1) ∧
    (0 < size w a → ∃ a1, pop_back w a = .ok a1 ∧ a1.memory.length = a.memory.length) ∧
    (∃ a1, DeleteAll fuel a = .ok a1 ∧ a1.memory.length = a.memory.length) ∧
    (∀ c, CpOK w b a.memory.length c → c.index < a.index →
      ∃ a1, rollBack fuel c a = .ok a1 ∧ a1.memory.length = a.memory.length) ∧
    (∀ cps, Session.step w Op.getState ⟨a, cps⟩ = .ok ⟨a, cps ++ [a.getState]⟩) ∧
    (∀ x : Allocator T, x.memory.length < 2 ^ w →
      (∀ k1 r x1, New w k1 x = .ok (r, x1) → BlockGrowth w k1 x x1) ∧
      (∀ t1 x1, push_back w t1 x = .ok x1 → BlockGrowth w 1 x x1) ∧
      (∀ x1, pop_back w x = .ok x1 → x1.memory.length = x.memory.length) ∧
      (∀ f x1, DeleteAll f x = .ok x1 → x1.memory.length = x.memory.length) ∧
      (∀ f c x1, rollBack f c x = .ok x1 → x1.memory.length = x.memory.length)) := by
  have h := hr.inv hb hbw
  obtain ⟨g1, g2, _, _, _, _⟩ := block_count_of_return w a h.len
  refine ⟨?_, ?_, ?_, ?_, ?_, fun _ => rfl, ?_⟩
  · exact ⟨_, _, New_spec h hk hkb, g1 _ _ _ (New_spec h hk hkb)⟩
  · obtain ⟨a1, hp, _⟩ := push_back_fill h t
    exact ⟨a1, hp, g2 _ _ hp⟩
  · intro hs
    have hpos : 0 < fill w a := by
      rcases Nat.eq_zero_or_pos (fill w a) with h0 | h0
      · rw [h.size_eq_fill, h0, Nat.zero_mod] at hs
        exact absurd hs (Nat.lt_irrefl 0)
      · exact h0
    obtain ⟨a1, hp, hl, _⟩ := pop_back_fill h hpos
    exact ⟨a1, hp, hl⟩
  · obtain ⟨a1, hd, _, hl, _⟩ := DeleteAll_spec fuel h hf1 hf2
    exact ⟨a1, hd, hl⟩
  · intro c hc hlt
    have hidx : a.index < a.memory.length := by
      rcases h.idx with i1 | ⟨i1, i2, _⟩
      · exact i1
      · exfalso
        rw [i2] at hc
        rcases hc.2 with c1 | ⟨c1, _⟩
        · exact Nat.not_lt_zero _ c1
        · omega
    obtain ⟨m, hm, hst⟩ := rollBack_cross_ok fuel c h hidx hlt hf1 (by omega)
    exact ⟨_, hm, hst.1⟩
  · intro x hx
    obtain ⟨e1, e2, e3, e4, e5, _⟩ := block_count_of_return w x hx
    exact ⟨e1, e2, e3, e4, e5⟩

theorem blocks_never_decrease_witness :
    (1 ≤ 2 ∧ 2 < 2 ^ 64 ∧ Reachable 64 2 (⟨2, 0, 0, [[1, 2]]⟩ : Allocator Nat) ∧
      0 < 1 ∧ 1 ≤ 2 ∧ 2 ≤ 4 ∧ ([[1, 2]] : List (List Nat)).length ≤ 4) ∧
    ((∃ r a1, New 64 1 (⟨2, 0, 0, [[1, 2]]⟩ : Allocator Nat) = .ok (some r, a1) ∧
        BlockGrowth 64 1 (⟨2, 0, 0, [[1, 2]]⟩ : Allocator Nat) a1) ∧
      (∃ a1, push_back 64 3 (⟨2, 0, 0, [[1, 2]]⟩ : Allocator Nat) = .ok a1 ∧
        BlockGrowth 64 1 (⟨2, 0, 0, [[1, 2]]⟩ : Allocator Nat) a1) ∧
      (0 < size 64 (⟨2, 0, 0, [[1, 2]]⟩ : Allocator Nat) →
        ∃ a1, pop_back 64 (⟨2, 0, 0, [[1, 2]]⟩ : Allocator Nat) = .ok a1 ∧
          a1.memory.length = ([[1, 2]] : List (List Nat)).length) ∧
      (∃ a1, DeleteAll 4 (⟨2, 0, 0, [[1, 2]]⟩ : Allocator Nat) = .ok a1 ∧
        a1.memory.length = ([[1, 2]] : List (List Nat)).length) ∧
      (∀ c, CpOK 64 2 ([[1, 2]] : List (List Nat)).length c → c.index < 0 →
        ∃ a1, rollBack 4 c (⟨2, 0, 0, [[1, 2]]⟩ : Allocator Nat) = .ok a1 ∧
          a1.memory.length = ([[1, 2]] : List (List Nat)).length) ∧
      (∀ cps, Session.step 64 Op.getState ⟨(⟨2, 0, 0, [[1, 2]]⟩ : Allocator Nat), cps⟩
        = .ok ⟨⟨2, 0, 0, [[1, 2]]⟩, cps ++ [⟨0, 0⟩]⟩) ∧
      (∀ x : Allocator Nat, x.memory.length < 2 ^ 64 →
        (∀ k1 r x1, New 64 k1 x = .ok (r, x1) → BlockGrowth 64 k1 x x1) ∧
        (∀ t1 x1, push_back 64 t1 x = .ok x1 → BlockGrowth 64 1 x x1) ∧
        (∀ x1, pop_back 64 x = .ok x1 → x1.memory.length = x.memory.length) ∧
        (∀ f x1, DeleteAll f x = .ok x1 → x1.memory.length = x.memory.length) ∧
        (∀ f c x1, rollBack f c x = .ok x1 → x1.memory.length = x.memory.length))) ∧
    ((⟨2, 0, 0, [[1, 2]]⟩ : Allocator Nat).remains < 1 ∧
      atLastBlock 64 (⟨2, 0, 0, [[1, 2]]⟩ : Allocator Nat) ∧
      New 64 1 (⟨2, 0, 0, [[1, 2]]⟩ : Allocator Nat)
        = .ok (some ⟨1, 0, 1⟩, ⟨2, 1, 1, [[1, 2], [0, 0]]⟩) ∧
      push_back 64 3 (⟨2, 0, 0, [[1, 2]]⟩ : Allocator Nat)
        = .ok ⟨2, 1, 1, [[1, 2], [3, 0]]⟩ ∧
      New 64 1 (⟨2, 0, 1, [[1, 0]]⟩ : Allocator Nat)
        = .ok (some ⟨0, 1, 1⟩, ⟨2, 0, 0, [[1, 0]]⟩)) := by
  have hrun : Session.run 64 [Op.push_back 1, Op.push_back 2]
      ⟨SetBlockSize 64 2 (Allocator.empty : Allocator Nat), []⟩
      = .ok ⟨⟨2, 0, 0, [[1, 2]]⟩, []⟩ := by rfl
  have hr : Reachable 64 2 (⟨2, 0, 0, [[1, 2]]⟩ : Allocator Nat) :=
    ⟨Allocator.empty, _, _, hrun, rfl, by decide⟩
  exact ⟨⟨by decide, by decide, hr, by decide, by decide, by decide, by decide⟩,
    blocks_never_decrease 64 2 1 4 3 ⟨2, 0, 0, [[1, 2]]⟩ (by decide) (by decide) hr
      (by decide) (by decide) (by decide) (by decide),
    ⟨by decide, Or.inl ⟨by decide, rfl⟩, by rfl, by rfl, by rfl⟩⟩

/-- C17, evaluated at a failing input: with `b = 4`, one append, a capture, and a
`pop_back`, the checkpoint `(0, 3)` has the index of the frontier `(0, 4)` and
`0 < 3 < 4`; `rollBack` enters its same-block branch, whose loop
`for (j = 0; j < state.remains; j < remains)` never changes `j`, and no fuel bound
lets the call return. -/
theorem rollBack_same_block_never_returns :
    Session.run 64 [Op.push_back 1, Op.getState, Op.pop_back]
        ⟨SetBlockSize 64 4 (Allocator.empty : Allocator Nat), []⟩
      = .ok ⟨⟨4, 0, 4, [[0, 0, 0, 0]]⟩, [⟨0, 3⟩]⟩ ∧
    ∀ fuel, rollBack fuel ⟨0, 3⟩ (⟨4, 0, 4, [[0, 0, 0, 0]]⟩ : Allocator Nat)
      = .error Fault.fuel := by
  refine ⟨by rfl, ?_⟩
  intro fuel
  have hinv : ArenaInv 64 4 (⟨4, 0, 4, [[0, 0, 0, 0]]⟩ : Allocator Nat) :=
    ⟨by decide, by decide, rfl, ⟨rfl, by decide⟩, by decide, by decide,
      Or.inl (by decide)⟩
  exact rollBack_same_block_stuck hinv (by decide) rfl (by decide) (by decide) fuel

/-- C18, the frontier invariant: in every arena reachable after `SetBlockSize(b)`
with `b >= 1` (through `New`, `push_back`, `pop_back`, `DeleteAll`, `getState`,
`rollBack` of captured checkpoints and client writes, whenever these return) the
block size is still `b`, `remains <= blockSize`, and `index` is either the sentinel
`(SIZE_T)(-1)` with an empty block store or a valid index below the number of
blocks. -/
theorem frontier_invariant {T : Type} [Inhabited T] (w b : Nat) (a : Allocator T)
    (hb : 1 ≤ b) (hbw : b < 2 ^ w) (hr : Reachable w b a) :
    a.blockSize = b ∧ a.remains ≤ a.blockSize ∧
    ((a.index = subW w 0 1 ∧ a.memory = []) ∨ a.index < a.memory.length) := by
  have h := hr.inv hb hbw
  refine ⟨h.bs, by rw [h.bs]; exact h.rem, ?_⟩
  rcases h.idx with h1 | ⟨h1, h2, _⟩
  · exact Or.inr h1
  · exact Or.inl ⟨by rw [subW_zero_one]; exact h1, h2⟩

theorem frontier_invariant_witness :
    (1 ≤ 2 ∧ 2 < 2 ^ 64 ∧ Reachable 64 2 (⟨2, 0, 1, [[1, 0], [0, 0]]⟩ : Allocator Nat)) ∧
    ((⟨2, 0, 1, [[1, 0], [0, 0]]⟩ : Allocator Nat).blockSize = 2 ∧
      (⟨2, 0, 1, [[1, 0], [0, 0]]⟩ : Allocator Nat).remains
        ≤ (⟨2, 0, 1, [[1, 0], [0, 0]]⟩ : Allocator Nat).blockSize ∧
      (((⟨2, 0, 1, [[1, 0], [0, 0]]⟩ : Allocator Nat).index = subW 64 0 1 ∧
          (⟨2, 0, 1, [[1, 0], [0, 0]]⟩ : Allocator Nat).memory = []) ∨
        (⟨2, 0, 1, [[1, 0], [0, 0]]⟩ : Allocator Nat).index
          < (⟨2, 0, 1, [[1, 0], [0, 0]]⟩ : Allocator Nat).memory.length)) := by
  have hrun : Session.run 64
      [Op.push_back 1, Op.getState, Op.New 2, Op.pop_back, Op.pop_back, Op.rollBack 4 0,
        Op.DeleteAll 4, Op.push_back 1]
      ⟨SetBlockSize 64 2 (Allocator.empty : Allocator Nat), []⟩
      = .ok ⟨⟨2, 0, 1, [[1, 0], [0, 0]]⟩, [⟨0, 1⟩]⟩ := by rfl
  have hr : Reachable 64 2 (⟨2, 0, 1, [[1, 0], [0, 0]]⟩ : Allocator Nat) :=
    ⟨Allocator.empty, _, _, hrun, rfl, by decide⟩
  exact ⟨⟨by decide, by decide, hr⟩,
    frontier_invariant 64 2 ⟨2, 0, 1, [[1, 0], [0, 0]]⟩ (by decide) (by decide) hr⟩

/-- C19: for every `b` and every prior arena, right after `SetBlockSize(b)` the arena
has no blocks, `index` is the sentinel `(SIZE_T)(-1) = 2^w - 1`, and `size()` returns
0: the guard `index >= 0` holds for every arena (so `size()` always evaluates the
formula), and `index * blockSize + blockSize - remains` is `2^w * b`, which is 0
modulo `2^w`. -/
theorem SetBlockSize_size_zero {T : Type} (w b : Nat) (a0 : Allocator T) :
    (SetBlockSize w b a0).memory = [] ∧
    (SetBlockSize w b a0).index = 2 ^ w - 1 ∧
    (SetBlockSize w b a0).remains = 0 ∧
    (SetBlockSize w b a0).blockSize = b ∧
    size w (SetBlockSize w b a0) = 0 ∧
    (∀ a : Allocator T, 0 ≤ a.index ∧
      size w a = subW w (addW w (mulW w a.index a.blockSize) a.blockSize) a.remains) ∧
    (2 ^ w - 1) * b + b - 0 = 2 ^ w * b ∧
    ((2 ^ w - 1) * b + b - 0) % 2 ^ w = 0 := by
  have hN : 0 < 2 ^ w := Nat.two_pow_pos w
  have e : (2 ^ w - 1) * b + b - 0 = 2 ^ w * b := by
    rw [Nat.sub_zero]
    have : (2 ^ w - 1) * b + b = (2 ^ w - 1 + 1) * b := by rw [Nat.add_mul, Nat.one_mul]
    rw [this, Nat.sub_add_cancel hN]
  refine ⟨rfl, subW_zero_one w, rfl, rfl, ?_, ?_, e, ?_⟩
  · unfold size SetBlockSize
    simp only [Nat.zero_le, if_true]
    rw [subW_zero_one]
    unfold subW addW mulW
    rw [Nat.mod_add_mod, Nat.zero_mod, Nat.sub_zero, Nat.add_mod_right, Nat.mod_add_mod]
    rw [Nat.sub_zero] at e
    rw [e, Nat.mul_mod_right]
  · intro a
    refine ⟨Nat.zero_le _, ?_⟩
    unfold size
    rw [if_pos (Nat.zero_le _)]
  · rw [e, Nat.mul_mod_right]

/-- C20: in an arena reachable after `SetBlockSize(b)` with `b >= 1` and with
`size() > 0`, `pop_back` returns; the one slot it touches is valid (block index below
the number of blocks, offset below `b`), that slot holds the default value
afterwards, and `size()` has decreased by exactly 1.  When the current block is fully
empty (`remains == blockSize`), then `index >= 1` and the slot is the last slot of
block `index - 1`, which becomes the current block; otherwise the slot is the one just
below the frontier in the current block. -/
theorem pop_back_valid {T : Type} [Inhabited T] (w b : Nat) (a : Allocator T)
    (hb : 1 ≤ b) (hbw : b < 2 ^ w) (hr : Reachable w b a) (hs : 0 < size w a) :
    ∃ i j a1, pop_back w a = .ok a1 ∧ i < a.memory.length ∧ j < b ∧
      setSlot a.memory i j default = .ok a1.memory ∧
      getSlot a1.memory i j = .ok default ∧
      size w a1 + 1 = size w a ∧
      (a.remains = b →
        1 ≤ a.index ∧ i = a.index - 1 ∧ j = b - 1 ∧ a1.index = a.index - 1 ∧
          a1.remains = 1) ∧
      (a.remains ≠ b →
        i = a.index ∧ j + 1 + a.remains = b ∧ a1.index = a.index ∧
          a1.remains = a.remains + 1) := by
  have h := hr.inv hb hbw
  have hrem := h.rem
  have hsz := h.size_eq_fill
  have hpos : 0 < fill w a := by
    rcases Nat.eq_zero_or_pos (fill w a) with h0 | h0
    · rw [hsz, h0, Nat.zero_mod] at hs
      exact absurd hs (Nat.lt_irrefl 0)
    · exact h0
  obtain ⟨m1, hpop, hset, hi, hj, hfull, hpart⟩ := pop_back_slot h hpos
  obtain ⟨a2, hpop2, _, hinv2, hfill2, _⟩ := pop_back_fill h hpos
  have ha2 : a2 = ⟨b, (back w a).index, (back w a).remains + 1, m1⟩ := by
    rw [hpop] at hpop2
    cases hpop2
    rfl
  refine ⟨(back w a).index, b - ((back w a).remains + 1), _, hpop, hi, by omega, hset,
    getSlot_set_self hset, ?_, ?_, ?_⟩
  · rw [← ha2, hinv2.size_eq_fill, hsz]
    have e : fill w a2 = fill w a - 1 := by omega
    rw [e]
    rw [hsz] at hs
    exact pred_mod hs
  · intro he
    obtain ⟨g1, g2, g3⟩ := hfull he
    refine ⟨g1, g2, ?_, g2, ?_⟩
    · rw [g3]
    · show (back w a).remains + 1 = 1
      rw [g3]
  · intro hne
    obtain ⟨g1, g2⟩ := hpart hne
    refine ⟨g1, ?_, g1, ?_⟩
    · rw [g2]; omega
    · show (back w a).remains + 1 = a.remains + 1
      rw [g2]

theorem pop_back_valid_witness :
    (1 ≤ 2 ∧ 2 < 2 ^ 64 ∧ Reachable 64 2 (⟨2, 1, 2, [[1, 2], [0, 0]]⟩ : Allocator Nat) ∧
      0 < size 64 (⟨2, 1, 2, [[1, 2], [0, 0]]⟩ : Allocator Nat)) ∧
    ∃ i j a1, pop_back 64 (⟨2, 1, 2, [[1, 2], [0, 0]]⟩ : Allocator Nat) = .ok a1 ∧
      i < ([[1, 2], [0, 0]] : List (List Nat)).length ∧ j < 2 ∧
      setSlot ([[1, 2], [0, 0]] : List (List Nat)) i j default = .ok a1.memory ∧
      getSlot a1.memory i j = .ok default ∧
      size 64 a1 + 1 = size 64 (⟨2, 1, 2, [[1, 2], [0, 0]]⟩ : Allocator Nat) ∧
      ((2 : Nat) = 2 →
        1 ≤ 1 ∧ i = 1 - 1 ∧ j = 2 - 1 ∧ a1.index = 1 - 1 ∧ a1.remains = 1) ∧
      ((2 : Nat) ≠ 2 →
        i = 1 ∧ j + 1 + 2 = 2 ∧ a1.index = 1 ∧ a1.remains = 2 + 1) := by
  have hrun : Session.run 64 [Op.push_back 1, Op.push_back 2, Op.push_back 3, Op.pop_back]
      ⟨SetBlockSize 64 2 (Allocator.empty : Allocator Nat), []⟩
      = .ok ⟨⟨2, 1, 2, [[1, 2], [0, 0]]⟩, []⟩ := by rfl
  have hr : Reachable 64 2 (⟨2, 1, 2, [[1, 2], [0, 0]]⟩ : Allocator Nat) :=
    ⟨Allocator.empty, _, _, hrun, rfl, by decide⟩
  exact ⟨⟨by decide, by decide, hr, by decide⟩,
    pop_back_valid 64 2 ⟨2, 1, 2, [[1, 2], [0, 0]]⟩ (by decide) (by decide) hr
      (by decide)⟩
